import Mathlib

set_option maxHeartbeats 1000000

/-!
Verification of the text-converter repository (`converters.js`, `run.js`).

The core routine `fixHtmlEncodingIfNeeded(filePath, forceEnc)` reads a file,
classifies its charset (forced label, or the statistical detector
`Encoding.detect`, overridden to ISO-2022-JP when a JIS escape is present),
transcodes to a Unicode string when the label is not UTF8, rewrites or inserts
a `<meta charset="UTF-8">` declaration, appends missing `</body>` / `</html>`
markers, and writes the file back exactly when something was changed.

The embedding below models file content as `List Nat` (bytes) and text as
`List Char`.  The two external library capabilities of `encoding-japanese`
are parameters: `detect : List Nat → Option String` (`none` models the
library returning `false`) and `convert : String → List Nat → List Char`
(conversion of the bytes from the named charset to a Unicode string).
Node's `buffer.toString("utf8")` and `fs.writeFile(..., "utf8")` are modelled
by an executable WHATWG-style UTF-8 decoder/encoder.

The regex operations of the source are implemented character by character
with JavaScript semantics for the exact patterns used (case-insensitive
ASCII matching, leftmost match, greedy/lazy quantifiers, multiline anchors).

`preprocessMarkdown` and the `run.js` extension dispatch are embedded in the
same style.
-/

namespace TextConv

/-- ASCII lower-casing of one character.  This is exactly the character
canonicalisation JavaScript applies for a case-insensitive (`/i`, non-Unicode)
regex whose pattern characters are ASCII: only `A`-`Z`/`a`-`z` fold together,
a non-ASCII character never matches an ASCII pattern character. -/
def lc (c : Char) : Char :=
  if 'A' ≤ c ∧ c ≤ 'Z' then Char.ofNat (c.toNat + 32) else c

/-- Case-insensitive character comparison (ASCII folding), as used by the
`/i` regexes of `fixHtmlEncodingIfNeeded`. -/
def ciEq (a b : Char) : Bool := lc a == lc b

/-- Case-insensitive prefix test: does `p` match the beginning of `s`? -/
def isPrefixCI : List Char → List Char → Bool
  | [], _ => true
  | _ :: _, [] => false
  | p :: ps, c :: cs => ciEq p c && isPrefixCI ps cs

/-- Case-insensitive substring test; for a pattern that is a plain literal
(such as `</body>`) this is exactly the JavaScript `/literal/i.test(s)`. -/
def testSub (p : List Char) : List Char → Bool
  | [] => p.isEmpty
  | s@(_ :: t) => isPrefixCI p s || testSub p t

/-- Number of positions of `s` at which the literal `p` matches
(case-insensitively).  Used to count occurrences of the closing markers. -/
def countOcc (p : List Char) : List Char → Nat
  | [] => 0
  | s@(_ :: t) => (if isPrefixCI p s then 1 else 0) + countOcc p t

/-! ### UTF-8 encoding and decoding (Node `utf8` semantics) -/

/-- The replacement character U+FFFD emitted by Node for invalid bytes. -/
def repl : Char := Char.ofNat 0xFFFD

/-- Is the byte a UTF-8 continuation byte? -/
def isCont (b : Nat) : Bool := 0x80 ≤ b && b ≤ 0xBF

/-- WHATWG-style UTF-8 decoder (the semantics of `buffer.toString("utf8")`):
valid sequences decode to their scalar value, invalid bytes produce U+FFFD,
a failed continuation byte is not consumed, a truncated tail produces one
U+FFFD. -/
def utf8Decode : List Nat → List Char
  | [] => []
  | b :: r =>
    if b < 0x80 then Char.ofNat b :: utf8Decode r
    else if b < 0xC2 then repl :: utf8Decode r
    else if b ≤ 0xDF then
      match r with
      | [] => [repl]
      | c1 :: r1 =>
        if isCont c1 then
          Char.ofNat ((b - 0xC0) * 0x40 + (c1 - 0x80)) :: utf8Decode r1
        else repl :: utf8Decode (c1 :: r1)
    else if b ≤ 0xEF then
      match r with
      | [] => [repl]
      | c1 :: r1 =>
        if (if b = 0xE0 then 0xA0 else 0x80) ≤ c1 ∧
            c1 ≤ (if b = 0xED then 0x9F else 0xBF) then
          match r1 with
          | [] => [repl]
          | c2 :: r2 =>
            if isCont c2 then
              Char.ofNat ((b - 0xE0) * 0x1000 + (c1 - 0x80) * 0x40 + (c2 - 0x80)) ::
                utf8Decode r2
            else repl :: utf8Decode (c2 :: r2)
        else repl :: utf8Decode (c1 :: r1)
    else if b ≤ 0xF4 then
      match r with
      | [] => [repl]
      | c1 :: r1 =>
        if (if b = 0xF0 then 0x90 else 0x80) ≤ c1 ∧
            c1 ≤ (if b = 0xF4 then 0x8F else 0xBF) then
          match r1 with
          | [] => [repl]
          | c2 :: r2 =>
            if isCont c2 then
              match r2 with
              | [] => [repl]
              | c3 :: r3 =>
                if isCont c3 then
                  Char.ofNat ((b - 0xF0) * 0x40000 + (c1 - 0x80) * 0x1000 +
                      (c2 - 0x80) * 0x40 + (c3 - 0x80)) :: utf8Decode r3
                else repl :: utf8Decode (c3 :: r3)
            else repl :: utf8Decode (c2 :: r2)
        else repl :: utf8Decode (c1 :: r1)
    else repl :: utf8Decode r

/-- UTF-8 encoding of one scalar value (the bytes `fs.writeFile(..., "utf8")`
stores for it). -/
def utf8EncodeChar (c : Char) : List Nat :=
  let n := c.toNat
  if n < 0x80 then [n]
  else if n < 0x800 then [0xC0 + n / 0x40, 0x80 + n % 0x40]
  else if n < 0x10000 then
    [0xE0 + n / 0x1000, 0x80 + (n / 0x40) % 0x40, 0x80 + n % 0x40]
  else
    [0xF0 + n / 0x40000, 0x80 + (n / 0x1000) % 0x40, 0x80 + (n / 0x40) % 0x40,
      0x80 + n % 0x40]

/-- UTF-8 encoding of a string. -/
def utf8Encode : List Char → List Nat
  | [] => []
  | c :: t => utf8EncodeChar c ++ utf8Encode t

/-! ### The regex patterns of `fixHtmlEncodingIfNeeded` -/

/-- Pattern fragment `<meta` of `/<meta[^>]*charset[^>]*>/i`. -/
def m5 : List Char := "<meta".data

/-- Pattern fragment `charset`. -/
def cs7 : List Char := "charset".data

/-- Pattern fragment `charset=` of `/<meta[^>]*charset=["']?utf-8["']?/i`. -/
def cs8 : List Char := "charset=".data

/-- Pattern fragment `utf-8`. -/
def utf5 : List Char := "utf-8".data

/-- Pattern fragment `<head` of `/<head[^>]*>/i`. -/
def h5 : List Char := "<head".data

/-- The literal `</body>`. -/
def bodyT : List Char := "</body>".data

/-- The literal `</html>`. -/
def htmlT : List Char := "</html>".data

/-- Replacement text `<meta charset="UTF-8">` of the source. -/
def canonMeta : List Char := "<meta charset=\x22UTF-8\x22>".data

/-- Text inserted after an existing `<head...>` tag:
`` `${m}\n  <meta charset="UTF-8">` `` minus the matched tag `m` itself. -/
def headIns : List Char := "\n  <meta charset=\x22UTF-8\x22>".data

/-- Text prepended when no `<head>` exists:
`<head><meta charset="UTF-8"></head>\n`. -/
def headPre : List Char := "<head><meta charset=\x22UTF-8\x22></head>\n".data

/-- Index of the first `>` in a string, if any.  `[^>]*` in the patterns can
only stop at this character, so every committed match ends here. -/
def firstGt : List Char → Option Nat
  | [] => none
  | c :: t => if c = '>' then some 0 else (firstGt t).map (· + 1)

/-- Does `charset` occur (case-insensitively) starting at some offset `k`
with `k + 7 ≤ j`?  `j` is the index of the first `>`, so this is exactly
`[^>]*charset[^>]*` fitting before that `>`. -/
def hasCharsetBefore : List Char → Nat → Bool
  | [], _ => false
  | s@(_ :: t), j =>
    (decide (7 ≤ j) && isPrefixCI cs7 s) ||
      (match j with
       | 0 => false
       | Nat.succ j1 => hasCharsetBefore t j1)

/-- Length of the match of `/<meta[^>]*charset[^>]*>/i` anchored at the start
of `s`, if it matches there.  Because `[^>]*` cannot cross a `>`, a match
starting here always ends at the first `>` after `<meta`, so the span is
forced; the match exists iff `charset` occurs before that `>`. -/
def metaMatchLen (s : List Char) : Option Nat :=
  if isPrefixCI m5 s then
    match firstGt (s.drop 5) with
    | some j => if hasCharsetBefore (s.drop 5) j then some (5 + j + 1) else none
    | none => none
  else none

/-- `hasMeta` of the source: `/<meta[^>]*charset[^>]*>/i.test(content)`. -/
def testMeta : List Char → Bool
  | [] => false
  | s@(_ :: t) => (metaMatchLen s).isSome || testMeta t

/-- Number of positions at which `/<meta[^>]*charset[^>]*>/i` matches: the
number of charset-declaration tags in the text. -/
def countMeta : List Char → Nat
  | [] => 0
  | s@(_ :: t) => (if (metaMatchLen s).isSome then 1 else 0) + countMeta t

/-- The optional quote plus `utf-8` tail of
`/<meta[^>]*charset=["']?utf-8["']?/i` (the trailing `["']?` can always
match empty, so it constrains nothing). -/
def quoteUtf8 : List Char → Bool
  | [] => false
  | s@(q :: r1) =>
    isPrefixCI utf5 s ||
      ((q == Char.ofNat 34 || q == Char.ofNat 39) && isPrefixCI utf5 r1)

/-- Backtracking scan for `[^>]*charset=["']?utf-8`: at each position either
the tail pattern matches here, or the current character is not `>` and we
skip it.  The disjunction reproduces the regex's backtracking exactly. -/
def scanCharsetEq : List Char → Bool
  | [] => false
  | s@(c :: t) =>
    (isPrefixCI cs8 s && quoteUtf8 (s.drop 8)) || (!(c == '>') && scanCharsetEq t)

/-- Match of `/<meta[^>]*charset=["']?utf-8["']?/i` anchored at the start. -/
def matchUtf8At (s : List Char) : Bool :=
  isPrefixCI m5 s && scanCharsetEq (s.drop 5)

/-- `isUtf8Meta` of the source:
`/<meta[^>]*charset=["']?utf-8["']?/i.test(content)`. -/
def testUtf8Meta : List Char → Bool
  | [] => false
  | s@(_ :: t) => matchUtf8At s || testUtf8Meta t

/-- Length of the match of `/<head[^>]*>/i` anchored at the start of `s`:
`<head`, then everything up to (and including) the first `>`. -/
def headMatchLen (s : List Char) : Option Nat :=
  if isPrefixCI h5 s then (firstGt (s.drop 5)).map (fun j => 5 + j + 1) else none

/-- `/<head[^>]*>/i.test(content)`. -/
def testHead : List Char → Bool
  | [] => false
  | s@(_ :: t) => (headMatchLen s).isSome || testHead t

/-- `content.replace(/<meta[^>]*charset[^>]*>/i, '<meta charset="UTF-8">')`:
replace the leftmost charset-declaration tag by the canonical one. -/
def replaceMeta : List Char → List Char
  | [] => []
  | s@(c :: t) =>
    match metaMatchLen s with
    | some n => canonMeta ++ s.drop n
    | none => c :: replaceMeta t

/-- `content.replace(/<head[^>]*>/i, m => m + '\n  <meta charset="UTF-8">')`:
insert the canonical declaration right after the leftmost `<head...>` tag. -/
def insertHead : List Char → List Char
  | [] => []
  | s@(c :: t) =>
    match headMatchLen s with
    | some n => s.take n ++ headIns ++ s.drop n
    | none => c :: insertHead t

/-! ### The four repair steps of `fixHtmlEncodingIfNeeded` -/

/-- Step 4 of the source (charset-declaration repair).  Returns the new
content and whether this step set `needFix`. -/
def fixMeta (c : List Char) : List Char × Bool :=
  let hasMeta := testMeta c
  let isUtf8Meta := testUtf8Meta c
  if !hasMeta || !isUtf8Meta then
    (if hasMeta then replaceMeta c
     else if testHead c then insertHead c
     else headPre ++ c, true)
  else (c, false)

/-- Step 5 of the source (closing-marker repair): append `\n</body>` when no
`</body>` is present (case-insensitively), then likewise for `</html>`. -/
def fixClosers (c : List Char) : List Char × Bool :=
  let p1 := if testSub bodyT c then (c, false) else (c ++ '\n' :: bodyT, true)
  let p2 :=
    if testSub htmlT p1.1 then (p1.1, false) else (p1.1 ++ '\n' :: htmlT, true)
  (p2.1, p1.2 || p2.2)

/-- JavaScript truthiness of the `enc` value (a missing argument and the
empty string are falsy; `Encoding.detect` returning `false` is `none`). -/
def truthy : Option String → Bool
  | none => false
  | some s => !(s == "")

/-- ASCII upper-casing of one character (for `enc.toUpperCase()`; the charset
labels involved are ASCII strings). -/
def upperChar (c : Char) : Char :=
  if 'a' ≤ c ∧ c ≤ 'z' then Char.ofNat (c.toNat - 32) else c

/-- `enc.toUpperCase()` on a charset label. -/
def upperS (s : String) : String := String.mk (s.data.map upperChar)

/-- Does the list start with the byte `b`? -/
def headIs (b : Nat) : List Nat → Bool
  | y :: _ => y == b
  | [] => false

/-- Does the list start with the bytes `b c`? -/
def headIs2 (b c : Nat) : List Nat → Bool
  | y :: t => y == b && headIs c t
  | [] => false

/-- `bin.includes(pair)` for a two-character `binary`-decoded pattern: do the
two byte values occur adjacently? -/
def hasPair (a b : Nat) : List Nat → Bool
  | [] => false
  | x :: t => (x == a && headIs b t) || hasPair a b t

/-- An occurrence of the three bytes `a b c` in a row (used to state the
claim's notion of an escape byte immediately followed by a JIS sequence). -/
def hasTriple (a b c : Nat) : List Nat → Bool
  | [] => false
  | x :: t => (x == a && headIs2 b c t) || hasTriple a b c t

/-- `buffer.includes(0x1b)`: does the byte occur anywhere? -/
def hasByte (a : Nat) : List Nat → Bool
  | [] => false
  | x :: t => (x == a) || hasByte a t

/-- The JIS-escape check of the source:
`buffer.includes(0x1b) && (bin.includes("$B") || bin.includes("(B"))`. -/
def hasEsc (bytes : List Nat) : Bool :=
  hasByte 27 bytes && (hasPair 36 66 bytes || hasPair 40 66 bytes)

/-- The claim's stronger condition: the byte 0x1B immediately followed by
`$B` or `(B`. -/
def jisEsc (bytes : List Nat) : Bool :=
  hasTriple 27 36 66 bytes || hasTriple 27 40 66 bytes

/-- Steps 1-2 of the source: `enc = forceEnc || Encoding.detect(bytes)`,
then `if (!forceEnc && hasEsc) enc = "ISO-2022-JP"`. -/
def effEnc (detect : List Nat → Option String) (bytes : List Nat)
    (forceEnc : Option String) : Option String :=
  let e0 := if truthy forceEnc then forceEnc else detect bytes
  if !truthy forceEnc && hasEsc bytes then some "ISO-2022-JP" else e0

/-- Step 3 of the source: transcode via `Encoding.convert` (and set
`needFix`) when `enc && enc.toUpperCase() !== "UTF8"`, otherwise decode the
buffer as UTF-8. -/
def decodeStep (convert : String → List Nat → List Char) (enc : Option String)
    (bytes : List Nat) : List Char × Bool :=
  match enc with
  | some e =>
    if !(e == "") && !(upperS e == "UTF8") then (convert e bytes, true)
    else (utf8Decode bytes, false)
  | none => (utf8Decode bytes, false)

/-- Does the `enc` value take the non-transcoding branch of step 3
(falsy, or upper-casing to `UTF8`)? -/
def encUtf8ish : Option String → Bool
  | none => true
  | some e => e == "" || upperS e == "UTF8"

/-- The observable outcome of one `fixHtmlEncodingIfNeeded` call:
the returned record `{ needFix, enc }`, the final content string, the bytes
stored at the path after the call, whether the file was written, and whether
a diagnostic line was printed. -/
structure FixResult where
  needFix : Bool
  enc : Option String
  content : List Char
  stored : List Nat
  wrote : Bool
  diag : Bool
  deriving Repr, DecidableEq

/-- The full `fixHtmlEncodingIfNeeded(filePath, forceEnc)` routine of
`converters.js`, with the two `encoding-japanese` capabilities as
parameters and the file content passed in and returned as bytes. -/
def fixHtmlEncodingIfNeeded (detect : List Nat → Option String)
    (convert : String → List Nat → List Char) (bytes : List Nat)
    (forceEnc : Option String) : FixResult :=
  let enc := effEnc detect bytes forceEnc
  let d := decodeStep convert enc bytes
  let m := fixMeta d.1
  let f := fixClosers m.1
  let needFix := d.2 || m.2 || f.2
  { needFix := needFix
    enc := if truthy enc then enc else none
    content := f.1
    stored := if needFix then utf8Encode f.1 else bytes
    wrote := needFix
    diag := true }

/-! ### `preprocessMarkdown` of `converters.js` -/

/-- JavaScript's `\s` character class. -/
def wsChar (c : Char) : Bool :=
  c == ' ' || c == '\t' || c == '\n' || c == '\r' || c == Char.ofNat 0x0B ||
  c == Char.ofNat 0x0C || c == Char.ofNat 0xA0 || c == Char.ofNat 0x1680 ||
  (decide (Char.ofNat 0x2000 ≤ c) && decide (c ≤ Char.ofNat 0x200A)) ||
  c == Char.ofNat 0x2028 || c == Char.ofNat 0x2029 || c == Char.ofNat 0x202F ||
  c == Char.ofNat 0x205F || c == Char.ofNat 0x3000 || c == Char.ofNat 0xFEFF

/-- JavaScript line terminators (after which a multiline `^` matches). -/
def isLT (c : Char) : Bool :=
  c == '\n' || c == '\r' || c == Char.ofNat 0x2028 || c == Char.ofNat 0x2029

/-- Length of the maximal whitespace run at the start (greedy `\s*`). -/
def wsLen (s : List Char) : Nat := (s.takeWhile wsChar).length

/-- `out.replace(/^\s+/, "")`: strip the leading whitespace run. -/
def dropWs (s : List Char) : List Char := s.dropWhile wsChar

/-- The literal `---` of the front-matter pattern. -/
def dashes : List Char := "---".data

/-- Index of the first occurrence of `---` (what the lazy `[\s\S]*?---`
stops at). -/
def firstTriple : List Char → Option Nat
  | [] => none
  | s@(_ :: t) =>
    if dashes.isPrefixOf s then some 0 else (firstTriple t).map (· + 1)

/-- Match of `/^---[\s\S]*?---\s*/` anchored at a line start: `---`, then
lazily up to the next `---`, then greedy `\s*`.  Returns the remainder of
the string after the whole match. -/
def fmMatchAt (s : List Char) : Option (List Char) :=
  if dashes.isPrefixOf s then
    match firstTriple (s.drop 3) with
    | some q => some (dropWs ((s.drop 3).drop (q + 3)))
    | none => none
  else none

/-- `out.replace(/^---[\s\S]*?---\s*/m, "")`: delete the first front-matter
block found at a line start.  The flag tracks whether the current position
is a line start. -/
def goFM : Bool → List Char → List Char
  | _, [] => []
  | atLS, s@(c :: t) =>
    if atLS then
      match fmMatchAt s with
      | some rest => rest
      | none => c :: goFM (isLT c) t
    else c :: goFM (isLT c) t

/-- The front-matter stripping step (step 1 of `preprocessMarkdown`). -/
def stripFM (s : List Char) : List Char := goFM true s

/-- Greedy `\s*$` after `true`: the largest `k` within the whitespace run
such that position `k` is the end of the string or a line terminator
(`$` in multiline mode). -/
def dollarBack (r : List Char) : Nat → Option Nat
  | 0 =>
    if r.length = 0 ∨ isLT (r.getD 0 ' ') then some 0 else none
  | Nat.succ k =>
    if k + 1 = r.length ∨ isLT (r.getD (k + 1) ' ') then some (k + 1)
    else dollarBack r k

/-- Match of `/^\s*marp:\s*true\s*$/i` anchored at a line start.  The greedy
`\s*` runs are forced (the following literals start with non-whitespace), and
`\s*$` backtracks to the largest end position allowed by `$`.  Returns
whether the matched text ends with a line terminator (so `^` matches right
after it) together with the remainder. -/
def marpMatchAt (s : List Char) : Option (Bool × List Char) :=
  let r1 := s.drop (wsLen s)
  if isPrefixCI "marp:".data r1 then
    let r2 := r1.drop 5
    let r3 := r2.drop (wsLen r2)
    if isPrefixCI "true".data r3 then
      let r4 := r3.drop 4
      match dollarBack r4 (wsLen r4) with
      | some k =>
        some (if k = 0 then false else isLT (r4.getD (k - 1) ' '), r4.drop k)
      | none => none
    else none
  else none

/-- `out.replace(/^\s*marp:\s*true\s*$/gmi, "")`: global removal.  `fuel`
bounds the recursion (every step consumes at least one character, so any
fuel of at least `s.length` computes the replacement). -/
def goMarpF : Nat → Bool → List Char → List Char
  | 0, _, s => s
  | _ + 1, _, [] => []
  | fuel + 1, atLS, s@(c :: t) =>
    if atLS then
      match marpMatchAt s with
      | some (eLT, rest) => goMarpF fuel eLT rest
      | none => c :: goMarpF fuel (isLT c) t
    else c :: goMarpF fuel (isLT c) t

/-- Length of the `#` run at the start. -/
def hashLen (s : List Char) : Nat := (s.takeWhile (fun c => c == '#')).length

/-- Match of `/^(#{1,6})\s+#+\s+/` anchored at a line start: one to six `#`
(the whole run, else the following `\s+` fails), whitespace, another `#` run,
whitespace.  Returns the size of the captured group, whether the match ends
with a line terminator, and the remainder. -/
def r3MatchAt (s : List Char) : Option (Nat × Bool × List Char) :=
  let h := hashLen s
  if 1 ≤ h ∧ h ≤ 6 then
    let r1 := s.drop h
    let w1 := wsLen r1
    if 0 < w1 then
      let r2 := r1.drop w1
      let h2 := hashLen r2
      if 0 < h2 then
        let r3 := r2.drop h2
        let w2 := wsLen r3
        if 0 < w2 then some (h, isLT (r3.getD (w2 - 1) ' '), r3.drop w2)
        else none
      else none
    else none
  else none

/-- `out.replace(/^(#{1,6})\s+#+\s+/gm, "$1 ")`: global replacement keeping
the captured heading markers plus a single space. -/
def goR3F : Nat → Bool → List Char → List Char
  | 0, _, s => s
  | _ + 1, _, [] => []
  | fuel + 1, atLS, s@(c :: t) =>
    if atLS then
      match r3MatchAt s with
      | some (h, eLT, rest) =>
        List.replicate h '#' ++ ' ' :: goR3F fuel eLT rest
      | none => c :: goR3F fuel (isLT c) t
    else c :: goR3F fuel (isLT c) t

/-- `preprocessMarkdown` of `converters.js`: strip a leading front-matter
block, remove `marp: true` directive lines, collapse repeated heading
markers, and strip leading whitespace. -/
def preprocessMarkdown (md : List Char) : List Char :=
  let s1 := stripFM md
  let s2 := goMarpF (s1.length + 1) true s1
  let s3 := goR3F (s2.length + 1) true s2
  dropWs s3

/-- Does `goFM` find a front-matter match anywhere (at a line start)? -/
def hasFMatch : Bool → List Char → Bool
  | _, [] => false
  | atLS, s@(c :: t) => (atLS && (fmMatchAt s).isSome) || hasFMatch (isLT c) t

/-- Does the marp-directive regex match anywhere (at a line start)? -/
def hasMarpMatch : Bool → List Char → Bool
  | _, [] => false
  | atLS, s@(c :: t) => (atLS && (marpMatchAt s).isSome) || hasMarpMatch (isLT c) t

/-- Does the heading-cleanup regex match anywhere (at a line start)? -/
def hasR3Match : Bool → List Char → Bool
  | _, [] => false
  | atLS, s@(c :: t) => (atLS && (r3MatchAt s).isSome) || hasR3Match (isLT c) t

/-- The line-start flag after scanning a list of characters. -/
def lsAfter : Bool → List Char → Bool
  | atLS, [] => atLS
  | _, c :: t => lsAfter (isLT c) t

/-- Does the front-matter scan hit a match while still inside `pre` (the
text after `pre` being `suf`)?  The matcher at each position sees the whole
remaining string, so a match may begin in `pre` and extend into `suf`. -/
def hasFMatchPre : Bool → List Char → List Char → Bool
  | _, [], _ => false
  | atLS, c :: t, suf =>
    (atLS && (fmMatchAt (c :: (t ++ suf))).isSome) || hasFMatchPre (isLT c) t suf

/-- Does the marp-directive scan hit a match while still inside `pre`? -/
def hasMarpPre : Bool → List Char → List Char → Bool
  | _, [], _ => false
  | atLS, c :: t, suf =>
    (atLS && (marpMatchAt (c :: (t ++ suf))).isSome) || hasMarpPre (isLT c) t suf

/-- Does the heading-cleanup scan hit a match while still inside `pre`? -/
def hasR3Pre : Bool → List Char → List Char → Bool
  | _, [], _ => false
  | atLS, c :: t, suf =>
    (atLS && (r3MatchAt (c :: (t ++ suf))).isSome) || hasR3Pre (isLT c) t suf

/-! ### `run.js` extension dispatch -/

/-- What `main()` of `run.js` does with the (already parsed) extension. -/
inductive ConvAction where
  | mdToHtml
  | wordToHtml
  | htmlToPdf
  | exitError
  deriving Repr, DecidableEq

/-- The dispatch of `run.js`: `ext = (parsed.ext || "").toLowerCase()`, then
`.md` → `mdToHtml`, `.docx` → `wordToHtml`, `.html` or `.htm` → `htmlToPdf`,
anything else → error exit without calling a converter. -/
def runDispatch (rawExt : List Char) : ConvAction :=
  let ext := rawExt.map lc
  if ext = ".md".data then ConvAction.mdToHtml
  else if ext = ".docx".data then ConvAction.wordToHtml
  else if ext = ".html".data ∨ ext = ".htm".data then ConvAction.htmlToPdf
  else ConvAction.exitError

/-! ### Concrete fixtures used by counterexamples and witnesses

The claims quantify over real invocations, in which `detect` and `convert`
are the `encoding-japanese` library.  The fixture detectors below pin down
the library behaviour relevant for each concrete input: `Encoding.detect`
classifies pure-ASCII byte content as `ASCII` (not `UTF8`), and content with
Japanese multibyte UTF-8 sequences as `UTF8`; `Encoding.convert` from a
one-byte-compatible charset to `UNICODE` is the identity on ASCII bytes. -/

/-- Detector fixture: `ASCII` for all-ASCII bytes, `UTF8` otherwise. -/
def detectAscii : List Nat → Option String :=
  fun b => if b.all (fun x => decide (x < 128)) then some "ASCII" else some "UTF8"

/-- Converter fixture: identity on the ASCII fixtures it is applied to
(modelled by decoding the bytes). -/
def convertAscii : String → List Nat → List Char := fun _ b => utf8Decode b

/-- Detector fixture returning the `UTF8` label. -/
def detectUtf8 : List Nat → Option String := fun _ => some "UTF8"

/-- Detector fixture for an inconclusive detection (`Encoding.detect`
returning `false`). -/
def detectNone : List Nat → Option String := fun _ => none

/-- Detector fixture returning the `SJIS` label. -/
def detectSjis : List Nat → Option String := fun _ => some "SJIS"

/-- Converter fixture whose output is irrelevant to the claim at hand. -/
def convertEmpty : String → List Nat → List Char := fun _ _ => []

/-- A fully compliant pure-ASCII HTML file. -/
def asciiCompliantHtml : List Char :=
  "<head><meta charset=\x22UTF-8\x22></head><body>hi</body></html>".data

/-- A fully compliant UTF-8 HTML file with a multibyte character. -/
def utf8CompliantHtml : List Char :=
  "<head><meta charset=\x22UTF-8\x22></head><body>あ</body></html>".data

/-- A compliant file carrying two charset-declaration tags. -/
def twoMetaHtml : List Char :=
  "<meta charset=\x22UTF-8\x22><meta charset=\x22utf-8\x22>あ</body></html>".data

/-- A file whose first charset-declaration tag overlaps a `</body>` marker:
the tag `<meta charset</body>` matches `/<meta[^>]*charset[^>]*>/i`. -/
def overlapMetaHtml : List Char :=
  "<meta charset</body>あ</body></html>".data

/-- ISO-2022-JP-style bytes: `<p>` ESC $ B &l ESC ( B `</p>`. -/
def jisBytes : List Nat :=
  [60, 112, 62, 27, 36, 66, 38, 108, 27, 40, 66, 60, 47, 112, 62]

/-! ### Basic lemmas about case-insensitive prefix matching and counting -/

theorem length_le_of_isPrefixCI {p s : List Char} (h : isPrefixCI p s = true) :
    p.length ≤ s.length := by
  induction p generalizing s with
  | nil => simp
  | cons a p ih =>
    cases s with
    | nil => simp [isPrefixCI] at h
    | cons c s =>
      simp only [isPrefixCI, Bool.and_eq_true] at h
      simpa using ih h.2

theorem isPrefixCI_false_of_lt {p s : List Char} (h : s.length < p.length) :
    isPrefixCI p s = false := by
  cases hb : isPrefixCI p s
  · rfl
  · exact absurd (length_le_of_isPrefixCI hb) (by omega)

theorem isPrefixCI_append_of_le {p s : List Char} (t : List Char)
    (h : p.length ≤ s.length) : isPrefixCI p (s ++ t) = isPrefixCI p s := by
  induction p generalizing s with
  | nil => simp [isPrefixCI]
  | cons a p ih =>
    cases s with
    | nil => simp at h
    | cons c s =>
      simp only [List.cons_append, isPrefixCI, List.append_eq]
      rw [ih (by simpa using h)]

theorem isPrefixCI_append {p s : List Char} (t : List Char)
    (h : isPrefixCI p s = true) : isPrefixCI p (s ++ t) = true := by
  rw [isPrefixCI_append_of_le t (length_le_of_isPrefixCI h)]; exact h

theorem isPrefixCI_drop_of_append {p u y : List Char}
    (h : isPrefixCI p (u ++ y) = true) (hu : u.length < p.length) :
    isPrefixCI (p.drop u.length) y = true := by
  induction u generalizing p with
  | nil => simpa using h
  | cons c u ih =>
    cases p with
    | nil => simp at hu
    | cons a p =>
      simp only [List.cons_append, isPrefixCI, Bool.and_eq_true] at h
      simpa using ih h.2 (by simpa using hu)

theorem ciEq_getD_of_isPrefixCI {p s : List Char} (h : isPrefixCI p s = true) :
    ∀ m, m < p.length → ciEq (p.getD m ' ') (s.getD m ' ') = true := by
  induction p generalizing s with
  | nil => intro m hm; simp at hm
  | cons a p ih =>
    cases s with
    | nil => simp [isPrefixCI] at h
    | cons c s =>
      simp only [isPrefixCI, Bool.and_eq_true] at h
      intro m hm
      cases m with
      | zero => simpa using h.1
      | succ m => simpa using ih h.2 m (by simpa using hm)

theorem drop_eq_getD_cons {p : List Char} {k : Nat} (h : k < p.length) :
    p.drop k = p.getD k ' ' :: p.drop (k + 1) := by
  induction p generalizing k with
  | nil => simp at h
  | cons a p ih =>
    cases k with
    | zero => simp
    | succ k => simpa using ih (by simpa using h)

theorem isPrefixCI_cons_false {p : List Char} {k : Nat} {ch : Char}
    (z : List Char) (hk : k < p.length)
    (h : ciEq (p.getD k ' ') ch = false) :
    isPrefixCI (p.drop k) (ch :: z) = false := by
  rw [drop_eq_getD_cons hk]
  simp only [isPrefixCI]
  rw [h]
  simp

theorem countOcc_cons (p : List Char) (c : Char) (t : List Char) :
    countOcc p (c :: t) = (if isPrefixCI p (c :: t) then 1 else 0) + countOcc p t :=
  rfl

theorem testSub_cons (p : List Char) (c : Char) (t : List Char) :
    testSub p (c :: t) = (isPrefixCI p (c :: t) || testSub p t) :=
  rfl

theorem countOcc_append_of_nostraddle {p : List Char} (x y : List Char)
    (h : ∀ u : List Char, u ≠ [] → u.length < p.length →
      (∃ v, x = v ++ u) → isPrefixCI p (u ++ y) = false) :
    countOcc p (x ++ y) = countOcc p x + countOcc p y := by
  induction x with
  | nil => simp [countOcc]
  | cons c t ih =>
    have ih2 := ih (fun u hu hlen hsuf => h u hu hlen
      (by obtain ⟨v, hv⟩ := hsuf; exact ⟨c :: v, by simp [hv]⟩))
    rw [List.cons_append, countOcc_cons, countOcc_cons, ih2]
    by_cases hlen : p.length ≤ (c :: t).length
    · have hhead : isPrefixCI p (c :: (t ++ y)) = isPrefixCI p (c :: t) :=
        isPrefixCI_append_of_le y hlen
      rw [hhead]
      omega
    · have h1 : isPrefixCI p (c :: t) = false :=
        isPrefixCI_false_of_lt (by omega)
      have h2 : isPrefixCI p (c :: (t ++ y)) = false :=
        h (c :: t) (by simp) (by omega) ⟨[], rfl⟩
      rw [h2, h1]
      omega

theorem countOcc_append_right_blocked {p : List Char} (x y : List Char)
    (h : ∀ k, k < p.length → 1 ≤ k → isPrefixCI (p.drop k) y = false) :
    countOcc p (x ++ y) = countOcc p x + countOcc p y := by
  refine countOcc_append_of_nostraddle x y (fun u hu hlen _ => ?_)
  cases hb : isPrefixCI p (u ++ y)
  · rfl
  · have := isPrefixCI_drop_of_append hb hlen
    have hlen1 : 1 ≤ u.length := by
      cases u with
      | nil => exact absurd rfl hu
      | cons a l => simp
    rw [h u.length hlen hlen1] at this
    exact absurd this (by simp)

theorem getLastD_irrel {u : List Char} (d e : Char) (hu : u ≠ []) :
    u.getLastD d = u.getLastD e := by
  cases u with
  | nil => exact absurd rfl hu
  | cons a l => rw [List.getLastD_cons, List.getLastD_cons]

theorem getLastD_append_of_ne_nil {u : List Char} (v : List Char) (d : Char)
    (hu : u ≠ []) : (v ++ u).getLastD d = u.getLastD d := by
  induction v generalizing d with
  | nil => rfl
  | cons a v ih =>
    rw [List.cons_append, List.getLastD_cons, ih a, getLastD_irrel a d hu]

theorem getD_last_of_ne_nil {u : List Char} (d : Char) (hu : u ≠ []) :
    u.getD (u.length - 1) d = u.getLastD d := by
  induction u with
  | nil => exact absurd rfl hu
  | cons a u ih =>
    cases u with
    | nil => rfl
    | cons b l =>
      have := ih (by simp)
      simpa [List.getLastD_cons, Nat.succ_sub_one] using this

theorem countOcc_append_left_blocked {p : List Char} (x y : List Char)
    (h : ∀ j, j + 1 < p.length → ciEq (p.getD j ' ') (x.getLastD ' ') = false) :
    countOcc p (x ++ y) = countOcc p x + countOcc p y := by
  refine countOcc_append_of_nostraddle x y (fun u hu hlen hsuf => ?_)
  cases hb : isPrefixCI p (u ++ y)
  · rfl
  · obtain ⟨v, hv⟩ := hsuf
    have hlast : u.getLastD ' ' = x.getLastD ' ' := by
      rw [hv, getLastD_append_of_ne_nil v ' ' hu]
    have hu1 : 1 ≤ u.length := by
      cases u with
      | nil => exact absurd rfl hu
      | cons a l => simp
    have hpoint := ciEq_getD_of_isPrefixCI hb (u.length - 1) (by omega)
    have hidx : (u ++ y).getD (u.length - 1) ' ' = u.getD (u.length - 1) ' ' := by
      rw [List.getD_eq_getElem?_getD, List.getD_eq_getElem?_getD,
        List.getElem?_append_left (by omega)]
    rw [hidx, getD_last_of_ne_nil ' ' hu, hlast] at hpoint
    rw [h (u.length - 1) (by omega)] at hpoint
    exact absurd hpoint (by simp)

theorem countOcc_append_le_left (p x y : List Char) :
    countOcc p x ≤ countOcc p (x ++ y) := by
  induction x with
  | nil => simp [countOcc]
  | cons c t ih =>
    rw [List.cons_append, countOcc_cons, countOcc_cons]
    have hif : (if isPrefixCI p (c :: t) then 1 else 0) ≤
        (if isPrefixCI p (c :: (t ++ y)) then 1 else 0) := by
      by_cases hb : isPrefixCI p (c :: t) = true
      · have hb2 : isPrefixCI p (c :: (t ++ y)) = true := isPrefixCI_append y hb
        rw [hb, hb2]
      · simp only [Bool.not_eq_true] at hb
        rw [hb]; simp
    omega

theorem countOcc_append_le_right (p x y : List Char) :
    countOcc p y ≤ countOcc p (x ++ y) := by
  induction x with
  | nil => simp
  | cons c t ih =>
    rw [List.cons_append, countOcc_cons]
    omega

theorem countOcc_take_le (p x : List Char) (n : Nat) :
    countOcc p (x.take n) ≤ countOcc p x := by
  have := countOcc_append_le_left p (x.take n) (x.drop n)
  rwa [List.take_append_drop] at this

theorem countOcc_drop_le (p x : List Char) (n : Nat) :
    countOcc p (x.drop n) ≤ countOcc p x := by
  have := countOcc_append_le_right p (x.take n) (x.drop n)
  rwa [List.take_append_drop] at this

theorem testSub_iff_countOcc {p : List Char} (hp : p ≠ []) (s : List Char) :
    testSub p s = true ↔ 0 < countOcc p s := by
  induction s with
  | nil => simp [testSub, countOcc, List.isEmpty_iff, hp]
  | cons c t ih =>
    by_cases hb : isPrefixCI p (c :: t) = true
    · have hc : countOcc p (c :: t) = 1 + countOcc p t := by
        rw [countOcc_cons, hb]; simp
      rw [testSub_cons, hb, hc]
      constructor
      · intro _; omega
      · intro _; simp
    · simp only [Bool.not_eq_true] at hb
      have hc : countOcc p (c :: t) = countOcc p t := by
        rw [countOcc_cons, hb]; simp
      rw [testSub_cons, hb, hc]
      simpa using ih

theorem testSub_append_left {p : List Char} (x : List Char) {y : List Char}
    (h : testSub p y = true) : testSub p (x ++ y) = true := by
  induction x with
  | nil => simpa using h
  | cons c t ih => simp [testSub, ih]

theorem testSub_append_right {p : List Char} {x : List Char} (y : List Char)
    (h : testSub p x = true) : testSub p (x ++ y) = true := by
  induction x with
  | nil =>
    simp only [testSub, List.isEmpty_iff] at h
    subst h
    cases y with
    | nil => simp [testSub]
    | cons c t => simp [testSub, isPrefixCI]
  | cons c t ih =>
    simp only [testSub, Bool.or_eq_true] at h
    rcases h with h | h
    · simp only [List.cons_append, testSub, Bool.or_eq_true]
      exact Or.inl (isPrefixCI_append y h)
    · simp [testSub, ih h]

/-! ### Stability of the anchored matchers under appending to the right -/

theorem firstGt_cons (c : Char) (t : List Char) :
    firstGt (c :: t) = if c = '>' then some 0 else (firstGt t).map (· + 1) :=
  rfl

theorem firstGt_append {x : List Char} {j : Nat} (y : List Char)
    (h : firstGt x = some j) : firstGt (x ++ y) = some j := by
  induction x generalizing j with
  | nil => simp [firstGt] at h
  | cons c t ih =>
    rw [firstGt_cons] at h
    rw [List.cons_append, firstGt_cons]
    by_cases hc : c = '>'
    · rw [if_pos hc] at h; rw [if_pos hc]; exact h
    · rw [if_neg hc] at h
      rw [if_neg hc]
      cases hg : firstGt t with
      | none => rw [hg] at h; simp at h
      | some j1 =>
        rw [hg] at h
        rw [ih hg]
        exact h

theorem hasCharsetBefore_zero (s : List Char) : hasCharsetBefore s 0 = false := by
  cases s <;> simp [hasCharsetBefore]

theorem hasCharsetBefore_cons_succ (c : Char) (t : List Char) (j : Nat) :
    hasCharsetBefore (c :: t) (j + 1) =
      ((decide (7 ≤ j + 1) && isPrefixCI cs7 (c :: t)) || hasCharsetBefore t j) :=
  rfl

theorem hasCharsetBefore_append {x : List Char} {j : Nat} (y : List Char)
    (h : hasCharsetBefore x j = true) : hasCharsetBefore (x ++ y) j = true := by
  induction x generalizing j with
  | nil => simp [hasCharsetBefore] at h
  | cons c t ih =>
    cases j with
    | zero => rw [hasCharsetBefore_zero] at h; exact absurd h (by simp)
    | succ j =>
      rw [hasCharsetBefore_cons_succ] at h
      rw [List.cons_append, hasCharsetBefore_cons_succ]
      rcases Bool.or_eq_true _ _ |>.mp h with h1 | h1
      · rcases Bool.and_eq_true _ _ |>.mp h1 with ⟨h2, h3⟩
        exact Bool.or_eq_true _ _ |>.mpr (Or.inl (Bool.and_eq_true _ _ |>.mpr
          ⟨h2, isPrefixCI_append y h3⟩))
      · exact Bool.or_eq_true _ _ |>.mpr (Or.inr (ih h1))

theorem drop_append_of_le {x : List Char} (y : List Char) {n : Nat}
    (h : n ≤ x.length) : (x ++ y).drop n = x.drop n ++ y := by
  rw [List.drop_append_eq_append_drop, Nat.sub_eq_zero_of_le h, List.drop_zero]

theorem metaMatchLen_append {x : List Char} {n : Nat} (y : List Char)
    (h : metaMatchLen x = some n) : metaMatchLen (x ++ y) = some n := by
  by_cases hm : isPrefixCI m5 x = true
  · have hm2 : isPrefixCI m5 (x ++ y) = true := isPrefixCI_append y hm
    have hlen : 5 ≤ x.length := by
      have := length_le_of_isPrefixCI hm
      have h5 : m5.length = 5 := by decide
      omega
    have hdrop : (x ++ y).drop 5 = x.drop 5 ++ y := drop_append_of_le y hlen
    rw [metaMatchLen, if_pos hm] at h
    rw [metaMatchLen, if_pos hm2, hdrop]
    cases hg : firstGt (x.drop 5) with
    | none => rw [hg] at h; simp at h
    | some j =>
      rw [hg] at h
      rw [firstGt_append y hg]
      have h2 : (if hasCharsetBefore (x.drop 5) j = true then some (5 + j + 1)
          else none) = some n := h
      show (if hasCharsetBefore (x.drop 5 ++ y) j = true then some (5 + j + 1)
        else none) = some n
      by_cases hcb : hasCharsetBefore (x.drop 5) j = true
      · rw [if_pos hcb] at h2
        rw [if_pos (hasCharsetBefore_append y hcb)]
        exact h2
      · rw [if_neg hcb] at h2; simp at h2
  · rw [metaMatchLen, if_neg hm] at h; simp at h

theorem headMatchLen_append {x : List Char} {n : Nat} (y : List Char)
    (h : headMatchLen x = some n) : headMatchLen (x ++ y) = some n := by
  by_cases hm : isPrefixCI h5 x = true
  · have hm2 : isPrefixCI h5 (x ++ y) = true := isPrefixCI_append y hm
    have hlen : 5 ≤ x.length := by
      have := length_le_of_isPrefixCI hm
      have hl : h5.length = 5 := by decide
      omega
    rw [headMatchLen, if_pos hm] at h
    rw [headMatchLen, if_pos hm2, drop_append_of_le y hlen]
    cases hg : firstGt (x.drop 5) with
    | none => rw [hg] at h; simp at h
    | some j =>
      rw [hg] at h
      rw [firstGt_append y hg]
      exact h
  · rw [headMatchLen, if_neg hm] at h; simp at h

theorem quoteUtf8_cons (q : Char) (r1 : List Char) :
    quoteUtf8 (q :: r1) =
      (isPrefixCI utf5 (q :: r1) ||
        ((q == Char.ofNat 34 || q == Char.ofNat 39) && isPrefixCI utf5 r1)) :=
  rfl

theorem quoteUtf8_append {r : List Char} (y : List Char)
    (h : quoteUtf8 r = true) : quoteUtf8 (r ++ y) = true := by
  cases r with
  | nil => simp [quoteUtf8] at h
  | cons q r1 =>
    rw [quoteUtf8_cons] at h
    rw [List.cons_append, quoteUtf8_cons]
    rcases Bool.or_eq_true _ _ |>.mp h with h1 | h1
    · exact Bool.or_eq_true _ _ |>.mpr (Or.inl (isPrefixCI_append y h1))
    · rcases Bool.and_eq_true _ _ |>.mp h1 with ⟨h2, h3⟩
      exact Bool.or_eq_true _ _ |>.mpr (Or.inr (Bool.and_eq_true _ _ |>.mpr
        ⟨h2, isPrefixCI_append y h3⟩))

theorem scanCharsetEq_cons (c : Char) (t : List Char) :
    scanCharsetEq (c :: t) =
      ((isPrefixCI cs8 (c :: t) && quoteUtf8 ((c :: t).drop 8)) ||
        (!(c == '>') && scanCharsetEq t)) :=
  rfl

theorem scanCharsetEq_append {x : List Char} (y : List Char)
    (h : scanCharsetEq x = true) : scanCharsetEq (x ++ y) = true := by
  induction x with
  | nil => simp [scanCharsetEq] at h
  | cons c t ih =>
    rw [scanCharsetEq_cons] at h
    rw [List.cons_append, scanCharsetEq_cons]
    rcases Bool.or_eq_true _ _ |>.mp h with h1 | h1
    · rcases Bool.and_eq_true _ _ |>.mp h1 with ⟨h2, h3⟩
      have hlen : 8 ≤ (c :: t).length := by
        have := length_le_of_isPrefixCI h2
        have h8 : cs8.length = 8 := by decide
        omega
      refine Bool.or_eq_true _ _ |>.mpr (Or.inl (Bool.and_eq_true _ _ |>.mpr
        ⟨isPrefixCI_append y h2, ?_⟩))
      have h0 : ((c :: t) ++ y).drop 8 = (c :: t).drop 8 ++ y :=
        drop_append_of_le y hlen
      have h1q : quoteUtf8 ((c :: t).drop 8 ++ y) = true := quoteUtf8_append y h3
      rw [← h0] at h1q
      exact h1q
    · rcases Bool.and_eq_true _ _ |>.mp h1 with ⟨h2, h3⟩
      exact Bool.or_eq_true _ _ |>.mpr (Or.inr (Bool.and_eq_true _ _ |>.mpr
        ⟨h2, ih h3⟩))

theorem matchUtf8At_append {x : List Char} (y : List Char)
    (h : matchUtf8At x = true) : matchUtf8At (x ++ y) = true := by
  rcases Bool.and_eq_true _ _ |>.mp h with ⟨h1, h2⟩
  have hlen : 5 ≤ x.length := by
    have := length_le_of_isPrefixCI h1
    have h5 : m5.length = 5 := by decide
    omega
  refine Bool.and_eq_true _ _ |>.mpr ⟨isPrefixCI_append y h1, ?_⟩
  rw [drop_append_of_le y hlen]
  exact scanCharsetEq_append y h2

theorem testMeta_cons (c : Char) (t : List Char) :
    testMeta (c :: t) = ((metaMatchLen (c :: t)).isSome || testMeta t) :=
  rfl

theorem testUtf8Meta_cons (c : Char) (t : List Char) :
    testUtf8Meta (c :: t) = (matchUtf8At (c :: t) || testUtf8Meta t) :=
  rfl

theorem testMeta_append_left {y : List Char} (x : List Char)
    (h : testMeta y = true) : testMeta (x ++ y) = true := by
  induction x with
  | nil => simpa using h
  | cons c t ih =>
    rw [List.cons_append, testMeta_cons]
    exact Bool.or_eq_true _ _ |>.mpr (Or.inr ih)

theorem testMeta_append_right {x : List Char} (y : List Char)
    (h : testMeta x = true) : testMeta (x ++ y) = true := by
  induction x with
  | nil => simp [testMeta] at h
  | cons c t ih =>
    rw [testMeta_cons] at h
    rw [List.cons_append, testMeta_cons]
    rcases Bool.or_eq_true _ _ |>.mp h with h1 | h1
    · cases hm : metaMatchLen (c :: t) with
      | none => rw [hm] at h1; simp at h1
      | some n =>
        have := metaMatchLen_append y hm
        refine Bool.or_eq_true _ _ |>.mpr (Or.inl ?_)
        rw [show (c :: t) ++ y = c :: (t ++ y) from rfl] at this
        simp [this]
    · exact Bool.or_eq_true _ _ |>.mpr (Or.inr (ih h1))

theorem testUtf8Meta_append_left {y : List Char} (x : List Char)
    (h : testUtf8Meta y = true) : testUtf8Meta (x ++ y) = true := by
  induction x with
  | nil => simpa using h
  | cons c t ih =>
    rw [List.cons_append, testUtf8Meta_cons]
    exact Bool.or_eq_true _ _ |>.mpr (Or.inr ih)

theorem testUtf8Meta_append_right {x : List Char} (y : List Char)
    (h : testUtf8Meta x = true) : testUtf8Meta (x ++ y) = true := by
  induction x with
  | nil => simp [testUtf8Meta] at h
  | cons c t ih =>
    rw [testUtf8Meta_cons] at h
    rw [List.cons_append, testUtf8Meta_cons]
    rcases Bool.or_eq_true _ _ |>.mp h with h1 | h1
    · have := matchUtf8At_append y h1
      refine Bool.or_eq_true _ _ |>.mpr (Or.inl ?_)
      rw [show (c :: t) ++ y = c :: (t ++ y) from rfl] at this
      exact this
    · exact Bool.or_eq_true _ _ |>.mpr (Or.inr (ih h1))

theorem testMeta_of_matchLen {s : List Char}
    (h : (metaMatchLen s).isSome = true) : testMeta s = true := by
  cases s with
  | nil =>
    have : metaMatchLen ([] : List Char) = none := by decide
    rw [this] at h; simp at h
  | cons c t =>
    rw [testMeta_cons]
    exact Bool.or_eq_true _ _ |>.mpr (Or.inl h)

theorem testUtf8Meta_of_match {s : List Char}
    (h : matchUtf8At s = true) : testUtf8Meta s = true := by
  cases s with
  | nil => simp [matchUtf8At, isPrefixCI, m5] at h
  | cons c t =>
    rw [testUtf8Meta_cons]
    exact Bool.or_eq_true _ _ |>.mpr (Or.inl h)

/-! ### Decomposition of the two rewrite operations -/

theorem replaceMeta_cons (c : Char) (t : List Char) :
    replaceMeta (c :: t) =
      (match metaMatchLen (c :: t) with
       | some n => canonMeta ++ (c :: t).drop n
       | none => c :: replaceMeta t) :=
  rfl

theorem insertHead_cons (c : Char) (t : List Char) :
    insertHead (c :: t) =
      (match headMatchLen (c :: t) with
       | some n => (c :: t).take n ++ headIns ++ (c :: t).drop n
       | none => c :: insertHead t) :=
  rfl

theorem replaceMeta_decomp {s : List Char} (h : testMeta s = true) :
    ∃ a b n, s = a ++ b ∧ metaMatchLen b = some n ∧
      replaceMeta s = a ++ (canonMeta ++ b.drop n) := by
  induction s with
  | nil => simp [testMeta] at h
  | cons c t ih =>
    cases hm : metaMatchLen (c :: t) with
    | some n =>
      refine ⟨[], c :: t, n, by simp, hm, ?_⟩
      rw [replaceMeta_cons, hm]
      simp
    | none =>
      rw [testMeta_cons, hm] at h
      simp only [Option.isSome_none, Bool.false_or] at h
      obtain ⟨a, b, n, h1, h2, h3⟩ := ih h
      refine ⟨c :: a, b, n, by simp [h1], h2, ?_⟩
      rw [replaceMeta_cons, hm, h3]
      simp

theorem insertHead_decomp {s : List Char} (h : testHead s = true) :
    ∃ a b n, s = a ++ b ∧ headMatchLen b = some n ∧
      insertHead s = (a ++ b.take n) ++ (headIns ++ b.drop n) := by
  induction s with
  | nil => simp [testHead] at h
  | cons c t ih =>
    cases hm : headMatchLen (c :: t) with
    | some n =>
      refine ⟨[], c :: t, n, by simp, hm, ?_⟩
      rw [insertHead_cons, hm]
      simp [List.append_assoc]
    | none =>
      rw [show testHead (c :: t) = ((headMatchLen (c :: t)).isSome || testHead t)
        from rfl, hm] at h
      simp only [Option.isSome_none, Bool.false_or] at h
      obtain ⟨a, b, n, h1, h2, h3⟩ := ih h
      refine ⟨c :: a, b, n, by simp [h1], h2, ?_⟩
      rw [insertHead_cons, hm, h3]
      simp

/-! ### The post-repair invariants of steps 4 and 5 -/

theorem canon_in_headIns : headIns = "\n  ".data ++ canonMeta := by decide

theorem canon_in_headPre :
    headPre = "<head>".data ++ (canonMeta ++ "</head>\x0a".data) := by decide

theorem metaMatchLen_canon : metaMatchLen canonMeta = some 22 := by decide

theorem matchUtf8At_canon : matchUtf8At canonMeta = true := by decide

theorem tests_canon_mid (a b : List Char) :
    testMeta (a ++ (canonMeta ++ b)) = true ∧
      testUtf8Meta (a ++ (canonMeta ++ b)) = true := by
  constructor
  · refine testMeta_append_left a (testMeta_of_matchLen ?_)
    rw [metaMatchLen_append b metaMatchLen_canon]
    rfl
  · exact testUtf8Meta_append_left a
      (testUtf8Meta_of_match (matchUtf8At_append b matchUtf8At_canon))

theorem fixMeta_tests (c : List Char) :
    testMeta (fixMeta c).1 = true ∧ testUtf8Meta (fixMeta c).1 = true := by
  by_cases h1 : testMeta c = true
  · by_cases h2 : testUtf8Meta c = true
    · simp only [fixMeta, h1, h2, Bool.not_true, Bool.or_self, Bool.false_or]
      simp [h1, h2]
    · simp only [Bool.not_eq_true] at h2
      have hfm : (fixMeta c).1 = replaceMeta c := by
        simp [fixMeta, h1, h2]
      obtain ⟨a, b, n, hb1, hb2, hb3⟩ := replaceMeta_decomp h1
      rw [hfm, hb3]
      exact tests_canon_mid a (b.drop n)
  · simp only [Bool.not_eq_true] at h1
    by_cases h3 : testHead c = true
    · have hfm : (fixMeta c).1 = insertHead c := by
        simp [fixMeta, h1, h3]
      obtain ⟨a, b, n, hb1, hb2, hb3⟩ := insertHead_decomp h3
      rw [hfm, hb3, canon_in_headIns]
      have := tests_canon_mid ((a ++ b.take n) ++ "\n  ".data) (b.drop n)
      constructor
      · simpa [List.append_assoc] using this.1
      · simpa [List.append_assoc] using this.2
    · have hfm : (fixMeta c).1 = headPre ++ c := by
        simp [fixMeta, h1, h3]
      rw [hfm, canon_in_headPre]
      have := tests_canon_mid ("<head>".data) ("</head>\x0a".data ++ c)
      constructor
      · simpa [List.append_assoc] using this.1
      · simpa [List.append_assoc] using this.2

theorem fixMeta_id {c : List Char} (h1 : testMeta c = true)
    (h2 : testUtf8Meta c = true) : fixMeta c = (c, false) := by
  simp [fixMeta, h1, h2]

theorem fixClosers_eq (c : List Char) :
    fixClosers c =
      if testSub bodyT c then
        (if testSub htmlT c then (c, false) else (c ++ '\n' :: htmlT, true))
      else
        (if testSub htmlT (c ++ '\n' :: bodyT) then (c ++ '\n' :: bodyT, true)
         else ((c ++ '\n' :: bodyT) ++ '\n' :: htmlT, true)) := by
  by_cases h1 : testSub bodyT c = true
  · by_cases h2 : testSub htmlT c = true
    · simp [fixClosers, h1, h2]
    · simp only [Bool.not_eq_true] at h2
      simp [fixClosers, h1, h2]
  · simp only [Bool.not_eq_true] at h1
    by_cases h2 : testSub htmlT (c ++ '\n' :: bodyT) = true
    · simp [fixClosers, h1, h2]
    · simp only [Bool.not_eq_true] at h2
      simp [fixClosers, h1, h2]

theorem fixClosers_tests (c : List Char) :
    testSub bodyT (fixClosers c).1 = true ∧
      testSub htmlT (fixClosers c).1 = true := by
  have hbody : testSub bodyT ('\n' :: bodyT) = true := by decide
  have hhtml : testSub htmlT ('\n' :: htmlT) = true := by decide
  rw [fixClosers_eq]
  by_cases h1 : testSub bodyT c = true
  · rw [if_pos h1]
    by_cases h2 : testSub htmlT c = true
    · rw [if_pos h2]
      exact ⟨h1, h2⟩
    · rw [if_neg h2]
      exact ⟨testSub_append_right _ h1, testSub_append_left c hhtml⟩
  · rw [if_neg h1]
    have hb1 : testSub bodyT (c ++ '\n' :: bodyT) = true :=
      testSub_append_left c hbody
    by_cases h2 : testSub htmlT (c ++ '\n' :: bodyT) = true
    · rw [if_pos h2]
      exact ⟨hb1, h2⟩
    · rw [if_neg h2]
      exact ⟨testSub_append_right _ hb1, testSub_append_left _ hhtml⟩

theorem fixClosers_id {c : List Char} (h1 : testSub bodyT c = true)
    (h2 : testSub htmlT c = true) : fixClosers c = (c, false) := by
  rw [fixClosers_eq, if_pos h1, if_pos h2]

theorem fixClosers_pres_testMeta {c : List Char} (h : testMeta c = true) :
    testMeta (fixClosers c).1 = true := by
  rw [fixClosers_eq]
  by_cases h1 : testSub bodyT c = true
  · rw [if_pos h1]
    by_cases h2 : testSub htmlT c = true
    · rw [if_pos h2]; exact h
    · rw [if_neg h2]; exact testMeta_append_right _ h
  · rw [if_neg h1]
    by_cases h2 : testSub htmlT (c ++ '\n' :: bodyT) = true
    · rw [if_pos h2]; exact testMeta_append_right _ h
    · rw [if_neg h2]
      exact testMeta_append_right _ (testMeta_append_right _ h)

theorem fixClosers_pres_testUtf8Meta {c : List Char} (h : testUtf8Meta c = true) :
    testUtf8Meta (fixClosers c).1 = true := by
  rw [fixClosers_eq]
  by_cases h1 : testSub bodyT c = true
  · rw [if_pos h1]
    by_cases h2 : testSub htmlT c = true
    · rw [if_pos h2]; exact h
    · rw [if_neg h2]; exact testUtf8Meta_append_right _ h
  · rw [if_neg h1]
    by_cases h2 : testSub htmlT (c ++ '\n' :: bodyT) = true
    · rw [if_pos h2]; exact testUtf8Meta_append_right _ h
    · rw [if_neg h2]
      exact testUtf8Meta_append_right _ (testUtf8Meta_append_right _ h)

/-! ### Round trip of the UTF-8 encoder and decoder -/

theorem char_toNat_cases (c : Char) :
    c.toNat < 0xD800 ∨ (0xE000 ≤ c.toNat ∧ c.toNat < 0x110000) := by
  have h := c.valid
  simp only [UInt32.isValidChar, Nat.isValidChar] at h
  have he : c.toNat = c.val.toNat := rfl
  rw [he]
  rcases h with h | h
  · exact Or.inl h
  · exact Or.inr ⟨by omega, h.2⟩

theorem utf8Decode_cons_eq (b : Nat) (r : List Nat) :
    utf8Decode (b :: r) =
      (if b < 0x80 then Char.ofNat b :: utf8Decode r
       else if b < 0xC2 then repl :: utf8Decode r
       else if b ≤ 0xDF then
         match r with
         | [] => [repl]
         | c1 :: r1 =>
           if isCont c1 then
             Char.ofNat ((b - 0xC0) * 0x40 + (c1 - 0x80)) :: utf8Decode r1
           else repl :: utf8Decode (c1 :: r1)
       else if b ≤ 0xEF then
         match r with
         | [] => [repl]
         | c1 :: r1 =>
           if (if b = 0xE0 then 0xA0 else 0x80) ≤ c1 ∧
               c1 ≤ (if b = 0xED then 0x9F else 0xBF) then
             match r1 with
             | [] => [repl]
             | c2 :: r2 =>
               if isCont c2 then
                 Char.ofNat ((b - 0xE0) * 0x1000 + (c1 - 0x80) * 0x40 +
                     (c2 - 0x80)) :: utf8Decode r2
               else repl :: utf8Decode (c2 :: r2)
           else repl :: utf8Decode (c1 :: r1)
       else if b ≤ 0xF4 then
         match r with
         | [] => [repl]
         | c1 :: r1 =>
           if (if b = 0xF0 then 0x90 else 0x80) ≤ c1 ∧
               c1 ≤ (if b = 0xF4 then 0x8F else 0xBF) then
             match r1 with
             | [] => [repl]
             | c2 :: r2 =>
               if isCont c2 then
                 match r2 with
                 | [] => [repl]
                 | c3 :: r3 =>
                   if isCont c3 then
                     Char.ofNat ((b - 0xF0) * 0x40000 + (c1 - 0x80) * 0x1000 +
                         (c2 - 0x80) * 0x40 + (c3 - 0x80)) :: utf8Decode r3
                   else repl :: utf8Decode (c3 :: r3)
               else repl :: utf8Decode (c2 :: r2)
           else repl :: utf8Decode (c1 :: r1)
       else repl :: utf8Decode r) := by
  cases r with
  | nil => rfl
  | cons c1 r1 =>
    cases r1 with
    | nil => rfl
    | cons c2 r2 =>
      cases r2 with
      | nil => rfl
      | cons c3 r3 => rfl

theorem utf8Decode_one {n : Nat} (t : List Nat) (h : n < 0x80) :
    utf8Decode (n :: t) = Char.ofNat n :: utf8Decode t := by
  rw [utf8Decode_cons_eq]
  rw [if_pos h]

theorem utf8Decode_two {n : Nat} (t : List Nat) (h1 : 0x80 ≤ n) (h2 : n < 0x800) :
    utf8Decode ((0xC0 + n / 0x40) :: (0x80 + n % 0x40) :: t) =
      Char.ofNat n :: utf8Decode t := by
  have hc : isCont (0x80 + n % 0x40) = true := by
    simp only [isCont, Bool.and_eq_true, decide_eq_true_eq]
    omega
  rw [utf8Decode_cons_eq]
  rw [if_neg (by omega), if_neg (by omega), if_pos (by omega)]
  show (if isCont (0x80 + n % 0x40) then
      Char.ofNat ((0xC0 + n / 0x40 - 0xC0) * 0x40 + (0x80 + n % 0x40 - 0x80)) ::
        utf8Decode t
    else repl :: utf8Decode ((0x80 + n % 0x40) :: t)) = Char.ofNat n :: utf8Decode t
  rw [if_pos hc,
    show (0xC0 + n / 0x40 - 0xC0) * 0x40 + (0x80 + n % 0x40 - 0x80) = n by omega]

theorem utf8Decode_three {n : Nat} (t : List Nat) (h1 : 0x800 ≤ n)
    (h2 : n < 0x10000) (h3 : ¬(0xD800 ≤ n ∧ n < 0xE000)) :
    utf8Decode ((0xE0 + n / 0x1000) :: (0x80 + (n / 0x40) % 0x40) ::
        (0x80 + n % 0x40) :: t) =
      Char.ofNat n :: utf8Decode t := by
  have hc1 : (if (0xE0 + n / 0x1000 : Nat) = 0xE0 then (0xA0 : Nat) else 0x80) ≤
      0x80 + (n / 0x40) % 0x40 ∧
      0x80 + (n / 0x40) % 0x40 ≤
        (if (0xE0 + n / 0x1000 : Nat) = 0xED then (0x9F : Nat) else 0xBF) := by
    constructor <;> split <;> omega
  have hc2 : isCont (0x80 + n % 0x40) = true := by
    simp only [isCont, Bool.and_eq_true, decide_eq_true_eq]
    omega
  rw [utf8Decode_cons_eq]
  rw [if_neg (by omega), if_neg (by omega), if_neg (by omega), if_pos (by omega)]
  show (if (if (0xE0 + n / 0x1000 : Nat) = 0xE0 then (0xA0 : Nat) else 0x80) ≤
        0x80 + (n / 0x40) % 0x40 ∧
        0x80 + (n / 0x40) % 0x40 ≤
          (if (0xE0 + n / 0x1000 : Nat) = 0xED then (0x9F : Nat) else 0xBF) then
      (match (0x80 + n % 0x40) :: t with
       | [] => [repl]
       | c2 :: r2 =>
         if isCont c2 then
           Char.ofNat ((0xE0 + n / 0x1000 - 0xE0) * 0x1000 +
               (0x80 + (n / 0x40) % 0x40 - 0x80) * 0x40 + (c2 - 0x80)) ::
             utf8Decode r2
         else repl :: utf8Decode (c2 :: r2))
    else repl :: utf8Decode ((0x80 + (n / 0x40) % 0x40) :: (0x80 + n % 0x40) :: t)) =
    Char.ofNat n :: utf8Decode t
  rw [if_pos hc1]
  show (if isCont (0x80 + n % 0x40) then
      Char.ofNat ((0xE0 + n / 0x1000 - 0xE0) * 0x1000 +
          (0x80 + (n / 0x40) % 0x40 - 0x80) * 0x40 + (0x80 + n % 0x40 - 0x80)) ::
        utf8Decode t
    else repl :: utf8Decode ((0x80 + n % 0x40) :: t)) = Char.ofNat n :: utf8Decode t
  rw [if_pos hc2,
    show (0xE0 + n / 0x1000 - 0xE0) * 0x1000 +
        (0x80 + (n / 0x40) % 0x40 - 0x80) * 0x40 + (0x80 + n % 0x40 - 0x80) = n by
      omega]

theorem utf8Decode_four {n : Nat} (t : List Nat) (h1 : 0x10000 ≤ n)
    (h2 : n < 0x110000) :
    utf8Decode ((0xF0 + n / 0x40000) :: (0x80 + (n / 0x1000) % 0x40) ::
        (0x80 + (n / 0x40) % 0x40) :: (0x80 + n % 0x40) :: t) =
      Char.ofNat n :: utf8Decode t := by
  have hc1 : (if (0xF0 + n / 0x40000 : Nat) = 0xF0 then (0x90 : Nat) else 0x80) ≤
      0x80 + (n / 0x1000) % 0x40 ∧
      0x80 + (n / 0x1000) % 0x40 ≤
        (if (0xF0 + n / 0x40000 : Nat) = 0xF4 then (0x8F : Nat) else 0xBF) := by
    constructor <;> split <;> omega
  have hc2 : isCont (0x80 + (n / 0x40) % 0x40) = true := by
    simp only [isCont, Bool.and_eq_true, decide_eq_true_eq]
    omega
  have hc3 : isCont (0x80 + n % 0x40) = true := by
    simp only [isCont, Bool.and_eq_true, decide_eq_true_eq]
    omega
  rw [utf8Decode_cons_eq]
  rw [if_neg (by omega), if_neg (by omega), if_neg (by omega), if_neg (by omega),
    if_pos (by omega)]
  show (if (if (0xF0 + n / 0x40000 : Nat) = 0xF0 then (0x90 : Nat) else 0x80) ≤
        0x80 + (n / 0x1000) % 0x40 ∧
        0x80 + (n / 0x1000) % 0x40 ≤
          (if (0xF0 + n / 0x40000 : Nat) = 0xF4 then (0x8F : Nat) else 0xBF) then
      (match (0x80 + (n / 0x40) % 0x40) :: (0x80 + n % 0x40) :: t with
       | [] => [repl]
       | c2 :: r2 =>
         if isCont c2 then
           (match r2 with
            | [] => [repl]
            | c3 :: r3 =>
              if isCont c3 then
                Char.ofNat ((0xF0 + n / 0x40000 - 0xF0) * 0x40000 +
                    (0x80 + (n / 0x1000) % 0x40 - 0x80) * 0x1000 +
                    (c2 - 0x80) * 0x40 + (c3 - 0x80)) :: utf8Decode r3
              else repl :: utf8Decode (c3 :: r3))
         else repl :: utf8Decode (c2 :: r2))
    else repl :: utf8Decode ((0x80 + (n / 0x1000) % 0x40) ::
      (0x80 + (n / 0x40) % 0x40) :: (0x80 + n % 0x40) :: t)) =
    Char.ofNat n :: utf8Decode t
  rw [if_pos hc1]
  show (if isCont (0x80 + (n / 0x40) % 0x40) then
      (match (0x80 + n % 0x40) :: t with
       | [] => [repl]
       | c3 :: r3 =>
         if isCont c3 then
           Char.ofNat ((0xF0 + n / 0x40000 - 0xF0) * 0x40000 +
               (0x80 + (n / 0x1000) % 0x40 - 0x80) * 0x1000 +
               (0x80 + (n / 0x40) % 0x40 - 0x80) * 0x40 + (c3 - 0x80)) ::
             utf8Decode r3
         else repl :: utf8Decode (c3 :: r3))
    else repl :: utf8Decode ((0x80 + (n / 0x40) % 0x40) :: (0x80 + n % 0x40) :: t)) =
    Char.ofNat n :: utf8Decode t
  rw [if_pos hc2]
  show (if isCont (0x80 + n % 0x40) then
      Char.ofNat ((0xF0 + n / 0x40000 - 0xF0) * 0x40000 +
          (0x80 + (n / 0x1000) % 0x40 - 0x80) * 0x1000 +
          (0x80 + (n / 0x40) % 0x40 - 0x80) * 0x40 + (0x80 + n % 0x40 - 0x80)) ::
        utf8Decode t
    else repl :: utf8Decode ((0x80 + n % 0x40) :: t)) = Char.ofNat n :: utf8Decode t
  rw [if_pos hc3,
    show (0xF0 + n / 0x40000 - 0xF0) * 0x40000 +
        (0x80 + (n / 0x1000) % 0x40 - 0x80) * 0x1000 +
        (0x80 + (n / 0x40) % 0x40 - 0x80) * 0x40 + (0x80 + n % 0x40 - 0x80) = n by
      omega]

theorem utf8Decode_encodeChar (c : Char) (t : List Nat) :
    utf8Decode (utf8EncodeChar c ++ t) = c :: utf8Decode t := by
  have hv := char_toNat_cases c
  have hofn : Char.ofNat c.toNat = c := Char.ofNat_toNat c
  simp only [utf8EncodeChar]
  by_cases h1 : c.toNat < 0x80
  · rw [if_pos h1]
    simp only [List.cons_append, List.nil_append]
    rw [utf8Decode_one t h1, hofn]
  · rw [if_neg h1]
    by_cases h2 : c.toNat < 0x800
    · rw [if_pos h2]
      simp only [List.cons_append, List.nil_append]
      rw [utf8Decode_two t (by omega) h2, hofn]
    · rw [if_neg h2]
      by_cases h3 : c.toNat < 0x10000
      · rw [if_pos h3]
        simp only [List.cons_append, List.nil_append]
        rw [utf8Decode_three t (by omega) h3 (by omega), hofn]
      · rw [if_neg h3]
        simp only [List.cons_append, List.nil_append]
        rw [utf8Decode_four t (by omega) (by omega), hofn]

theorem utf8Encode_cons (c : Char) (s : List Char) :
    utf8Encode (c :: s) = utf8EncodeChar c ++ utf8Encode s :=
  rfl

theorem utf8_roundtrip (s : List Char) : utf8Decode (utf8Encode s) = s := by
  induction s with
  | nil => rfl
  | cons c t ih =>
    rw [utf8Encode_cons, utf8Decode_encodeChar, ih]

/-! ### The repair steps create no closing markers -/

theorem canonMeta_cons :
    canonMeta = '<' :: "meta charset=\x22UTF-8\x22>".data := by decide

theorem headIns_cons :
    headIns = '\x0a' :: "  <meta charset=\x22UTF-8\x22>".data := by decide

theorem canonMeta_last : canonMeta.getLastD ' ' = '>' := by decide

theorem headIns_last : headIns.getLastD ' ' = '>' := by decide

theorem headPre_last : headPre.getLastD ' ' = '\x0a' := by decide

/-- Splitting off text that starts with a character no marker tail starts
with: occurrences cannot straddle the junction. -/
theorem countOcc_split_head {p : List Char} {ch : Char} (x z : List Char)
    (hblk : ∀ k, k < p.length → 1 ≤ k → ciEq (p.getD k ' ') ch = false) :
    countOcc p (x ++ ch :: z) = countOcc p x + countOcc p (ch :: z) :=
  countOcc_append_right_blocked x (ch :: z)
    (fun k hk h1k => isPrefixCI_cons_false z hk (hblk k hk h1k))

/-- All the straddle-blocking facts a marker pattern needs: no `<` or
newline inside it except at the front, and no `>` before the last
character.  Both `</body>` and `</html>` satisfy them. -/
structure MarkerPat (p : List Char) : Prop where
  ne : p ≠ []
  noLt : ∀ k, k < p.length → 1 ≤ k → ciEq (p.getD k ' ') '<' = false
  noNl : ∀ k, k < p.length → ciEq (p.getD k ' ') '\x0a' = false
  noGt : ∀ j, j < p.length → j + 1 < p.length → ciEq (p.getD j ' ') '>' = false
  cCanon : countOcc p canonMeta = 0
  cIns : countOcc p headIns = 0
  cPre : countOcc p headPre = 0

theorem markerPat_body : MarkerPat bodyT := by
  refine ⟨by decide, by decide, by decide, by decide, by decide, by decide,
    by decide⟩

theorem markerPat_html : MarkerPat htmlT := by
  refine ⟨by decide, by decide, by decide, by decide, by decide, by decide,
    by decide⟩

theorem countOcc_fixMeta_zero {p : List Char} (hp : MarkerPat p)
    {c : List Char} (h : countOcc p c = 0) : countOcc p (fixMeta c).1 = 0 := by
  by_cases h1 : testMeta c = true
  · by_cases h2 : testUtf8Meta c = true
    · have : (fixMeta c).1 = c := by simp [fixMeta, h1, h2]
      rw [this, h]
    · simp only [Bool.not_eq_true] at h2
      have hfm : (fixMeta c).1 = replaceMeta c := by
        simp [fixMeta, h1, h2]
      obtain ⟨a, b, n, hb1, hb2, hb3⟩ := replaceMeta_decomp h1
      rw [hfm, hb3]
      have hA : countOcc p a = 0 := by
        have := countOcc_append_le_left p a b
        rw [← hb1] at this
        omega
      have hB : countOcc p (b.drop n) = 0 := by
        have h4 := countOcc_drop_le p b n
        have h5 := countOcc_append_le_right p a b
        rw [← hb1] at h5
        omega
      have hsplit1 : countOcc p (canonMeta ++ b.drop n) =
          countOcc p canonMeta + countOcc p (b.drop n) := by
        refine countOcc_append_left_blocked canonMeta (b.drop n) ?_
        intro j hj
        rw [canonMeta_last]
        exact hp.noGt j (by omega) hj
      have hsplit2 : countOcc p (a ++ (canonMeta ++ b.drop n)) =
          countOcc p a + countOcc p (canonMeta ++ b.drop n) := by
        have := countOcc_split_head (p := p) a
          ("meta charset=\x22UTF-8\x22>".data ++ b.drop n) hp.noLt
        rw [canonMeta_cons, List.cons_append]
        exact this
      rw [hsplit2, hsplit1, hA, hB, hp.cCanon]
  · simp only [Bool.not_eq_true] at h1
    by_cases h3 : testHead c = true
    · have hfm : (fixMeta c).1 = insertHead c := by
        simp [fixMeta, h1, h3]
      obtain ⟨a, b, n, hb1, hb2, hb3⟩ := insertHead_decomp h3
      rw [hfm, hb3]
      have hpre : (a ++ b.take n) ++ b.drop n = c := by
        rw [List.append_assoc, List.take_append_drop, hb1]
      have hA : countOcc p (a ++ b.take n) = 0 := by
        have := countOcc_append_le_left p (a ++ b.take n) (b.drop n)
        rw [hpre] at this
        omega
      have hB : countOcc p (b.drop n) = 0 := by
        have := countOcc_append_le_right p (a ++ b.take n) (b.drop n)
        rw [hpre] at this
        omega
      have hsplit1 : countOcc p (headIns ++ b.drop n) =
          countOcc p headIns + countOcc p (b.drop n) := by
        refine countOcc_append_left_blocked headIns (b.drop n) ?_
        intro j hj
        rw [headIns_last]
        exact hp.noGt j (by omega) hj
      have hsplit2 : countOcc p ((a ++ b.take n) ++ (headIns ++ b.drop n)) =
          countOcc p (a ++ b.take n) + countOcc p (headIns ++ b.drop n) := by
        have := countOcc_split_head (p := p) (a ++ b.take n)
          ("  <meta charset=\x22UTF-8\x22>".data ++ b.drop n)
          (fun k hk h1k => hp.noNl k hk)
        rw [headIns_cons, List.cons_append]
        exact this
      rw [hsplit2, hsplit1, hA, hB, hp.cIns]
    · have hfm : (fixMeta c).1 = headPre ++ c := by
        simp [fixMeta, h1, h3]
      rw [hfm]
      have hsplit : countOcc p (headPre ++ c) =
          countOcc p headPre + countOcc p c := by
        refine countOcc_append_left_blocked headPre c ?_
        intro j hj
        rw [headPre_last]
        exact hp.noNl j (by omega)
      rw [hsplit, hp.cPre, h]

theorem testSub_false_of_zero {p : List Char} (hp : p ≠ []) {s : List Char}
    (h : countOcc p s = 0) : testSub p s = false := by
  cases hb : testSub p s
  · rfl
  · have := (testSub_iff_countOcc hp s).mp hb
    omega

theorem countOcc_body_nlBody (x : List Char) :
    countOcc bodyT (x ++ '\x0a' :: bodyT) = countOcc bodyT x + 1 := by
  have := countOcc_split_head (p := bodyT) x bodyT (fun k hk _ => markerPat_body.noNl k hk)
  rw [this, show countOcc bodyT ('\x0a' :: bodyT) = 1 by decide]

theorem countOcc_body_nlHtml (x : List Char) :
    countOcc bodyT (x ++ '\x0a' :: htmlT) = countOcc bodyT x := by
  have := countOcc_split_head (p := bodyT) x htmlT (fun k hk _ => markerPat_body.noNl k hk)
  rw [this, show countOcc bodyT ('\x0a' :: htmlT) = 0 by decide]
  omega

theorem countOcc_html_nlBody (x : List Char) :
    countOcc htmlT (x ++ '\x0a' :: bodyT) = countOcc htmlT x := by
  have := countOcc_split_head (p := htmlT) x bodyT (fun k hk _ => markerPat_html.noNl k hk)
  rw [this, show countOcc htmlT ('\x0a' :: bodyT) = 0 by decide]
  omega

theorem countOcc_html_nlHtml (x : List Char) :
    countOcc htmlT (x ++ '\x0a' :: htmlT) = countOcc htmlT x + 1 := by
  have := countOcc_split_head (p := htmlT) x htmlT (fun k hk _ => markerPat_html.noNl k hk)
  rw [this, show countOcc htmlT ('\x0a' :: htmlT) = 1 by decide]

theorem fixClosers_body_count {c : List Char} (h : countOcc bodyT c = 0) :
    countOcc bodyT (fixClosers c).1 = 1 := by
  have hne : bodyT ≠ [] := by decide
  have htest : testSub bodyT c = false := testSub_false_of_zero hne h
  rw [fixClosers_eq, if_neg (by simp [htest])]
  by_cases h2 : testSub htmlT (c ++ '\x0a' :: bodyT) = true
  · rw [if_pos h2]
    show countOcc bodyT (c ++ '\x0a' :: bodyT) = 1
    rw [countOcc_body_nlBody, h]
  · rw [if_neg h2]
    show countOcc bodyT ((c ++ '\x0a' :: bodyT) ++ '\x0a' :: htmlT) = 1
    rw [countOcc_body_nlHtml, countOcc_body_nlBody, h]

theorem fixClosers_html_count {c : List Char} (h : countOcc htmlT c = 0) :
    countOcc htmlT (fixClosers c).1 = 1 := by
  have hne : htmlT ≠ [] := by decide
  rw [fixClosers_eq]
  by_cases h1 : testSub bodyT c = true
  · rw [if_pos h1]
    have htest : testSub htmlT c = false := testSub_false_of_zero hne h
    rw [if_neg (by simp [htest])]
    show countOcc htmlT (c ++ '\x0a' :: htmlT) = 1
    rw [countOcc_html_nlHtml, h]
  · rw [if_neg h1]
    have hc2 : countOcc htmlT (c ++ '\x0a' :: bodyT) = 0 := by
      rw [countOcc_html_nlBody, h]
    have htest : testSub htmlT (c ++ '\x0a' :: bodyT) = false :=
      testSub_false_of_zero hne hc2
    rw [if_neg (by simp [htest])]
    show countOcc htmlT ((c ++ '\x0a' :: bodyT) ++ '\x0a' :: htmlT) = 1
    rw [countOcc_html_nlHtml, hc2]

/-! ### Lemmas about the Markdown preprocessing pipeline -/

theorem hasFMatch_cons (atLS : Bool) (c : Char) (t : List Char) :
    hasFMatch atLS (c :: t) =
      ((atLS && (fmMatchAt (c :: t)).isSome) || hasFMatch (isLT c) t) :=
  rfl

theorem goFM_cons (atLS : Bool) (c : Char) (t : List Char) :
    goFM atLS (c :: t) =
      (if atLS then
        match fmMatchAt (c :: t) with
        | some rest => rest
        | none => c :: goFM (isLT c) t
      else c :: goFM (isLT c) t) :=
  rfl

theorem hasMarpMatch_cons (atLS : Bool) (c : Char) (t : List Char) :
    hasMarpMatch atLS (c :: t) =
      ((atLS && (marpMatchAt (c :: t)).isSome) || hasMarpMatch (isLT c) t) :=
  rfl

theorem goMarpF_cons (m : Nat) (atLS : Bool) (c : Char) (t : List Char) :
    goMarpF (m + 1) atLS (c :: t) =
      (if atLS then
        match marpMatchAt (c :: t) with
        | some (eLT, rest) => goMarpF m eLT rest
        | none => c :: goMarpF m (isLT c) t
      else c :: goMarpF m (isLT c) t) :=
  rfl

theorem hasR3Match_cons (atLS : Bool) (c : Char) (t : List Char) :
    hasR3Match atLS (c :: t) =
      ((atLS && (r3MatchAt (c :: t)).isSome) || hasR3Match (isLT c) t) :=
  rfl

theorem goR3F_cons (m : Nat) (atLS : Bool) (c : Char) (t : List Char) :
    goR3F (m + 1) atLS (c :: t) =
      (if atLS then
        match r3MatchAt (c :: t) with
        | some (h, eLT, rest) =>
          List.replicate h '#' ++ ' ' :: goR3F m eLT rest
        | none => c :: goR3F m (isLT c) t
      else c :: goR3F m (isLT c) t) :=
  rfl

theorem goFM_id (s : List Char) :
    ∀ atLS, hasFMatch atLS s = false → goFM atLS s = s := by
  induction s with
  | nil => intro atLS _; rfl
  | cons c t ih =>
    intro atLS h
    rw [hasFMatch_cons] at h
    rcases Bool.or_eq_false_iff.mp h with ⟨h1, h2⟩
    rw [goFM_cons]
    by_cases ha : atLS = true
    · rw [ha] at h1
      simp only [Bool.true_and] at h1
      cases hm : fmMatchAt (c :: t) with
      | some rest => rw [hm] at h1; simp at h1
      | none =>
        subst ha
        rw [if_pos (rfl : true = true)]
        show c :: goFM (isLT c) t = c :: t
        rw [ih (isLT c) h2]
    · simp only [Bool.not_eq_true] at ha
      subst ha
      rw [if_neg (by simp : ¬ (false = true))]
      show c :: goFM (isLT c) t = c :: t
      rw [ih (isLT c) h2]

theorem goMarpF_id (s : List Char) :
    ∀ fuel atLS, hasMarpMatch atLS s = false → goMarpF fuel atLS s = s := by
  induction s with
  | nil => intro fuel atLS _; cases fuel <;> rfl
  | cons c t ih =>
    intro fuel atLS h
    cases fuel with
    | zero => rfl
    | succ m =>
      rw [hasMarpMatch_cons] at h
      rcases Bool.or_eq_false_iff.mp h with ⟨h1, h2⟩
      rw [goMarpF_cons]
      by_cases ha : atLS = true
      · rw [ha] at h1
        simp only [Bool.true_and] at h1
        cases hm : marpMatchAt (c :: t) with
        | some pr => rw [hm] at h1; simp at h1
        | none =>
          subst ha
          rw [if_pos (rfl : true = true)]
          show c :: goMarpF m (isLT c) t = c :: t
          rw [ih m (isLT c) h2]
      · simp only [Bool.not_eq_true] at ha
        subst ha
        rw [if_neg (by simp : ¬ (false = true))]
        show c :: goMarpF m (isLT c) t = c :: t
        rw [ih m (isLT c) h2]

theorem goR3F_id (s : List Char) :
    ∀ fuel atLS, hasR3Match atLS s = false → goR3F fuel atLS s = s := by
  induction s with
  | nil => intro fuel atLS _; cases fuel <;> rfl
  | cons c t ih =>
    intro fuel atLS h
    cases fuel with
    | zero => rfl
    | succ m =>
      rw [hasR3Match_cons] at h
      rcases Bool.or_eq_false_iff.mp h with ⟨h1, h2⟩
      rw [goR3F_cons]
      by_cases ha : atLS = true
      · rw [ha] at h1
        simp only [Bool.true_and] at h1
        cases hm : r3MatchAt (c :: t) with
        | some pr => rw [hm] at h1; simp at h1
        | none =>
          subst ha
          rw [if_pos (rfl : true = true)]
          show c :: goR3F m (isLT c) t = c :: t
          rw [ih m (isLT c) h2]
      · simp only [Bool.not_eq_true] at ha
        subst ha
        rw [if_neg (by simp : ¬ (false = true))]
        show c :: goR3F m (isLT c) t = c :: t
        rw [ih m (isLT c) h2]

theorem isPrefixOf_append_self (l t : List Char) :
    l.isPrefixOf (l ++ t) = true := by
  induction l with
  | nil => simp [List.isPrefixOf]
  | cons c m ih => simp [List.isPrefixOf, ih]

theorem fmMatchAt_dashes (u : List Char) {q : Nat} (h : firstTriple u = some q) :
    fmMatchAt (dashes ++ u) = some (dropWs (u.drop (q + 3))) := by
  have hpre : dashes.isPrefixOf (dashes ++ u) = true := isPrefixOf_append_self _ u
  have hd : (dashes ++ u).drop 3 = u := by
    rw [drop_append_of_le u (by decide : 3 ≤ dashes.length)]
    rw [show dashes.drop 3 = [] by decide, List.nil_append]
  rw [fmMatchAt, if_pos hpre, hd, h]

theorem stripFM_front {u : List Char} {q : Nat} (h : firstTriple u = some q) :
    stripFM (dashes ++ u) = dropWs (u.drop (q + 3)) := by
  have hm := fmMatchAt_dashes u h
  have hcons : dashes ++ u = '-' :: ('-' :: '-' :: u) := rfl
  have hm2 : fmMatchAt ('-' :: ('-' :: '-' :: u)) =
      some (dropWs (u.drop (q + 3))) := hcons ▸ hm
  rw [stripFM, hcons, goFM_cons, if_pos rfl, hm2]

theorem preprocessMarkdown_id {md : List Char}
    (h1 : hasFMatch true md = false) (h2 : hasMarpMatch true md = false)
    (h3 : hasR3Match true md = false) (h4 : dropWs md = md) :
    preprocessMarkdown md = md := by
  simp only [preprocessMarkdown]
  rw [show stripFM md = md from goFM_id md true h1]
  rw [goMarpF_id md _ true h2, goR3F_id md _ true h3, h4]

theorem lsAfter_cons (atLS : Bool) (c : Char) (t : List Char) :
    lsAfter atLS (c :: t) = lsAfter (isLT c) t :=
  rfl

theorem hasFMatchPre_cons (atLS : Bool) (c : Char) (t suf : List Char) :
    hasFMatchPre atLS (c :: t) suf =
      ((atLS && (fmMatchAt (c :: (t ++ suf))).isSome) ||
        hasFMatchPre (isLT c) t suf) :=
  rfl

theorem hasMarpPre_cons (atLS : Bool) (c : Char) (t suf : List Char) :
    hasMarpPre atLS (c :: t) suf =
      ((atLS && (marpMatchAt (c :: (t ++ suf))).isSome) ||
        hasMarpPre (isLT c) t suf) :=
  rfl

theorem hasR3Pre_cons (atLS : Bool) (c : Char) (t suf : List Char) :
    hasR3Pre atLS (c :: t) suf =
      ((atLS && (r3MatchAt (c :: (t ++ suf))).isSome) ||
        hasR3Pre (isLT c) t suf) :=
  rfl

theorem wsChar_of_isLT {c : Char} (h : isLT c = true) : wsChar c = true := by
  simp only [isLT, Bool.or_eq_true, beq_iff_eq] at h
  rcases h with ((h | h) | h) | h <;> subst h <;> decide

theorem isLT_eq_false {c : Char} (h : wsChar c = false) : isLT c = false := by
  cases hl : isLT c with
  | false => rfl
  | true => rw [wsChar_of_isLT hl] at h; exact absurd h (by simp)

theorem wsLen_cons_of_not {c : Char} (t : List Char) (h : wsChar c = false) :
    wsLen (c :: t) = 0 := by
  simp [wsLen, List.takeWhile_cons, h]

theorem wsLen_cons_of_ws {c : Char} (t : List Char) (h : wsChar c = true) :
    wsLen (c :: t) = wsLen t + 1 := by
  simp [wsLen, List.takeWhile_cons, h]

theorem hashLen_cons_of_not {c : Char} (t : List Char) (h : (c == '#') = false) :
    hashLen (c :: t) = 0 := by
  simp [hashLen, List.takeWhile_cons, h]

theorem hashLen_cons_hash (t : List Char) :
    hashLen ('#' :: t) = hashLen t + 1 := by
  simp [hashLen, List.takeWhile_cons]

theorem hashLen_replicate (n : Nat) {c : Char} (t : List Char)
    (h : (c == '#') = false) :
    hashLen (List.replicate n '#' ++ c :: t) = n := by
  induction n with
  | zero => simpa using hashLen_cons_of_not t h
  | succ m ih =>
    rw [List.replicate_succ, List.cons_append, hashLen_cons_hash, ih]

theorem replicate_drop (n : Nat) (c : Char) (t : List Char) :
    (List.replicate n c ++ t).drop n = t := by
  rw [drop_append_of_le t (List.length_replicate n c).ge]
  rw [show (List.replicate n c).drop n = [] from by
    rw [List.drop_replicate]; simp]
  rw [List.nil_append]

theorem dollarBack_succ (r : List Char) (k : Nat) :
    dollarBack r (k + 1) =
      (if k + 1 = r.length ∨ isLT (r.getD (k + 1) ' ') then some (k + 1)
       else dollarBack r k) :=
  rfl

theorem dollarBack_zero (r : List Char) :
    dollarBack r 0 =
      (if r.length = 0 ∨ isLT (r.getD 0 ' ') then some 0 else none) :=
  rfl

theorem goFM_append (pre : List Char) :
    ∀ (atLS : Bool) (suf : List Char), hasFMatchPre atLS pre suf = false →
      goFM atLS (pre ++ suf) = pre ++ goFM (lsAfter atLS pre) suf := by
  induction pre with
  | nil => intro atLS suf _; rfl
  | cons c t ih =>
    intro atLS suf h
    rw [hasFMatchPre_cons] at h
    rcases Bool.or_eq_false_iff.mp h with ⟨h1, h2⟩
    rw [List.cons_append, goFM_cons, lsAfter_cons]
    by_cases ha : atLS = true
    · subst ha
      simp only [Bool.true_and] at h1
      have hm : fmMatchAt (c :: (t ++ suf)) = none := by
        cases hmm : fmMatchAt (c :: (t ++ suf)) with
        | none => rfl
        | some rest => rw [hmm] at h1; simp at h1
      rw [if_pos (rfl : true = true), hm]
      show c :: goFM (isLT c) (t ++ suf) =
        (c :: t) ++ goFM (lsAfter (isLT c) t) suf
      rw [ih (isLT c) suf h2]
      rfl
    · simp only [Bool.not_eq_true] at ha
      subst ha
      rw [if_neg (by simp : ¬ (false = true))]
      show c :: goFM (isLT c) (t ++ suf) =
        (c :: t) ++ goFM (lsAfter (isLT c) t) suf
      rw [ih (isLT c) suf h2]
      rfl

theorem goFM_match {s rest : List Char} (h : fmMatchAt s = some rest) :
    goFM true s = rest := by
  cases s with
  | nil =>
    rw [show fmMatchAt ([] : List Char) = none from by decide] at h
    exact absurd h (by simp)
  | cons c t =>
    rw [goFM_cons, if_pos (rfl : true = true), h]

theorem stripFM_at_line_start {pre u : List Char} {q : Nat}
    (h0 : hasFMatchPre true pre (dashes ++ u) = false)
    (h1 : lsAfter true pre = true) (h2 : firstTriple u = some q) :
    stripFM (pre ++ (dashes ++ u)) = pre ++ dropWs (u.drop (q + 3)) := by
  rw [stripFM, goFM_append pre true (dashes ++ u) h0, h1,
    goFM_match (fmMatchAt_dashes u h2)]

theorem marpMatchAt_line (x : Char) (t : List Char) (hx : wsChar x = false) :
    marpMatchAt ("marp: true".data ++ ('\n' :: x :: t)) =
      some (false, '\n' :: x :: t) := by
  have h1 : wsLen ("marp: true".data ++ ('\n' :: x :: t)) = 0 := by
    rw [show "marp: true".data ++ ('\n' :: x :: t) =
      'm' :: ("arp: true".data ++ ('\n' :: x :: t)) from rfl]
    exact wsLen_cons_of_not _ (by decide)
  have h2 : isPrefixCI ("marp:".data)
      ("marp: true".data ++ ('\n' :: x :: t)) = true := by
    rw [isPrefixCI_append_of_le ('\n' :: x :: t) (by decide)]
    decide
  have h3 : ("marp: true".data ++ ('\n' :: x :: t)).drop 5 =
      " true".data ++ ('\n' :: x :: t) := by
    rw [drop_append_of_le ('\n' :: x :: t)
      (by decide : 5 ≤ ("marp: true".data).length)]
    rw [show ("marp: true".data).drop 5 = " true".data from by decide]
  have h4 : wsLen (" true".data ++ ('\n' :: x :: t)) = 1 := by
    rw [show " true".data ++ ('\n' :: x :: t) =
      ' ' :: ('t' :: ("rue".data ++ ('\n' :: x :: t))) from rfl]
    rw [wsLen_cons_of_ws _ (by decide : wsChar ' ' = true),
      wsLen_cons_of_not _ (by decide : wsChar 't' = false)]
  have h5 : (" true".data ++ ('\n' :: x :: t)).drop 1 =
      "true".data ++ ('\n' :: x :: t) := by
    rw [drop_append_of_le ('\n' :: x :: t)
      (by decide : 1 ≤ (" true".data).length)]
    rw [show (" true".data).drop 1 = "true".data from by decide]
  have h6 : isPrefixCI ("true".data)
      ("true".data ++ ('\n' :: x :: t)) = true := by
    rw [isPrefixCI_append_of_le ('\n' :: x :: t) (by decide)]
    decide
  have h7 : ("true".data ++ ('\n' :: x :: t)).drop 4 = '\n' :: x :: t := by
    rw [drop_append_of_le ('\n' :: x :: t)
      (by decide : 4 ≤ ("true".data).length)]
    rw [show ("true".data).drop 4 = ([] : List Char) from by decide,
      List.nil_append]
  have h8 : wsLen ('\n' :: x :: t) = 1 := by
    rw [wsLen_cons_of_ws _ (by decide : wsChar '\n' = true),
      wsLen_cons_of_not _ hx]
  have hc : ¬ (0 + 1 = ('\n' :: x :: t).length ∨
      isLT (('\n' :: x :: t).getD (0 + 1) ' ') = true) := by
    rintro (hcl | hcl)
    · rw [List.length_cons, List.length_cons] at hcl; omega
    · rw [show ('\n' :: x :: t).getD (0 + 1) ' ' = x from rfl,
        isLT_eq_false hx] at hcl
      exact absurd hcl (by simp)
  have hp : ('\n' :: x :: t).length = 0 ∨
      isLT (('\n' :: x :: t).getD 0 ' ') = true := by
    right
    rw [show ('\n' :: x :: t).getD 0 ' ' = '\n' from rfl]
    decide
  have h9 : dollarBack ('\n' :: x :: t) 1 = some 0 := by
    rw [show (1 : Nat) = 0 + 1 from rfl, dollarBack_succ, if_neg hc,
      dollarBack_zero, if_pos hp]
  simp only [marpMatchAt]
  rw [h1, List.drop_zero, if_pos h2, h3, h4, h5, if_pos h6, h7, h8, h9]
  show some (if 0 = 0 then false else isLT (('\n' :: x :: t).getD (0 - 1) ' '),
      List.drop 0 ('\n' :: x :: t)) = some (false, '\n' :: x :: t)
  rw [if_pos (rfl : (0 : Nat) = 0), List.drop_zero]

theorem goMarpF_append (pre : List Char) :
    ∀ (fuel : Nat) (atLS : Bool) (suf : List Char),
      hasMarpPre atLS pre suf = false →
      goMarpF (pre.length + fuel) atLS (pre ++ suf) =
        pre ++ goMarpF fuel (lsAfter atLS pre) suf := by
  induction pre with
  | nil =>
    intro fuel atLS suf _
    simp only [List.length_nil, Nat.zero_add, List.nil_append]
    rfl
  | cons c t ih =>
    intro fuel atLS suf h
    rw [hasMarpPre_cons] at h
    rcases Bool.or_eq_false_iff.mp h with ⟨h1, h2⟩
    rw [show (c :: t).length + fuel = (t.length + fuel) + 1 from by
      rw [List.length_cons]; omega]
    rw [List.cons_append, goMarpF_cons, lsAfter_cons]
    by_cases ha : atLS = true
    · subst ha
      simp only [Bool.true_and] at h1
      have hm : marpMatchAt (c :: (t ++ suf)) = none := by
        cases hmm : marpMatchAt (c :: (t ++ suf)) with
        | none => rfl
        | some pr => rw [hmm] at h1; simp at h1
      rw [if_pos (rfl : true = true), hm]
      show c :: goMarpF (t.length + fuel) (isLT c) (t ++ suf) =
        (c :: t) ++ goMarpF fuel (lsAfter (isLT c) t) suf
      rw [ih fuel (isLT c) suf h2]
      rfl
    · simp only [Bool.not_eq_true] at ha
      subst ha
      rw [if_neg (by simp : ¬ (false = true))]
      show c :: goMarpF (t.length + fuel) (isLT c) (t ++ suf) =
        (c :: t) ++ goMarpF fuel (lsAfter (isLT c) t) suf
      rw [ih fuel (isLT c) suf h2]
      rfl

theorem goMarpF_match {s rest : List Char} {eLT : Bool} (fuel : Nat)
    (h : marpMatchAt s = some (eLT, rest)) :
    goMarpF (fuel + 1) true s = goMarpF fuel eLT rest := by
  cases s with
  | nil =>
    rw [show marpMatchAt ([] : List Char) = none from by decide] at h
    exact absurd h (by simp)
  | cons c t =>
    rw [goMarpF_cons, if_pos (rfl : true = true), h]

theorem r3MatchAt_line (n m : Nat) (x : Char) (t : List Char)
    (hn1 : 1 ≤ n) (hn2 : n ≤ 6) (hm1 : 1 ≤ m) (hx : wsChar x = false) :
    r3MatchAt (List.replicate n '#' ++
        ' ' :: (List.replicate m '#' ++ ' ' :: x :: t)) =
      some (n, false, x :: t) := by
  have hA : hashLen (List.replicate n '#' ++
      ' ' :: (List.replicate m '#' ++ ' ' :: x :: t)) = n :=
    hashLen_replicate n _ (by decide)
  have hB : (List.replicate n '#' ++
      ' ' :: (List.replicate m '#' ++ ' ' :: x :: t)).drop n =
      ' ' :: (List.replicate m '#' ++ ' ' :: x :: t) :=
    replicate_drop n '#' _
  have hw0 : wsLen (List.replicate m '#' ++ ' ' :: x :: t) = 0 := by
    cases m with
    | zero => exact absurd hm1 (by omega)
    | succ m2 =>
      rw [List.replicate_succ, List.cons_append]
      exact wsLen_cons_of_not _ (by decide)
  have hC : wsLen (' ' :: (List.replicate m '#' ++ ' ' :: x :: t)) = 1 := by
    rw [wsLen_cons_of_ws _ (by decide : wsChar ' ' = true), hw0]
  have hD : (' ' :: (List.replicate m '#' ++ ' ' :: x :: t)).drop 1 =
      List.replicate m '#' ++ ' ' :: x :: t := rfl
  have hE : hashLen (List.replicate m '#' ++ ' ' :: x :: t) = m :=
    hashLen_replicate m _ (by decide)
  have hF : (List.replicate m '#' ++ ' ' :: x :: t).drop m = ' ' :: x :: t :=
    replicate_drop m '#' _
  have hG : wsLen (' ' :: x :: t) = 1 := by
    rw [wsLen_cons_of_ws _ (by decide : wsChar ' ' = true),
      wsLen_cons_of_not _ hx]
  simp only [r3MatchAt]
  rw [hA, if_pos ⟨hn1, hn2⟩, hB, hC]
  rw [if_pos (by omega : (0 : Nat) < 1), hD, hE]
  rw [if_pos (by omega : 0 < m), hF, hG]
  rw [if_pos (by omega : (0 : Nat) < 1)]
  rw [show (' ' :: x :: t).getD (1 - 1) ' ' = ' ' from rfl,
    show isLT ' ' = false from by decide,
    show (' ' :: x :: t).drop 1 = x :: t from rfl]

theorem goR3F_append (pre : List Char) :
    ∀ (fuel : Nat) (atLS : Bool) (suf : List Char),
      hasR3Pre atLS pre suf = false →
      goR3F (pre.length + fuel) atLS (pre ++ suf) =
        pre ++ goR3F fuel (lsAfter atLS pre) suf := by
  induction pre with
  | nil =>
    intro fuel atLS suf _
    simp only [List.length_nil, Nat.zero_add, List.nil_append]
    rfl
  | cons c t ih =>
    intro fuel atLS suf h
    rw [hasR3Pre_cons] at h
    rcases Bool.or_eq_false_iff.mp h with ⟨h1, h2⟩
    rw [show (c :: t).length + fuel = (t.length + fuel) + 1 from by
      rw [List.length_cons]; omega]
    rw [List.cons_append, goR3F_cons, lsAfter_cons]
    by_cases ha : atLS = true
    · subst ha
      simp only [Bool.true_and] at h1
      have hm : r3MatchAt (c :: (t ++ suf)) = none := by
        cases hmm : r3MatchAt (c :: (t ++ suf)) with
        | none => rfl
        | some pr => rw [hmm] at h1; simp at h1
      rw [if_pos (rfl : true = true), hm]
      show c :: goR3F (t.length + fuel) (isLT c) (t ++ suf) =
        (c :: t) ++ goR3F fuel (lsAfter (isLT c) t) suf
      rw [ih fuel (isLT c) suf h2]
      rfl
    · simp only [Bool.not_eq_true] at ha
      subst ha
      rw [if_neg (by simp : ¬ (false = true))]
      show c :: goR3F (t.length + fuel) (isLT c) (t ++ suf) =
        (c :: t) ++ goR3F fuel (lsAfter (isLT c) t) suf
      rw [ih fuel (isLT c) suf h2]
      rfl

theorem goR3F_match {s rest : List Char} {n : Nat} {eLT : Bool} (fuel : Nat)
    (h : r3MatchAt s = some (n, eLT, rest)) :
    goR3F (fuel + 1) true s =
      List.replicate n '#' ++ ' ' :: goR3F fuel eLT rest := by
  cases s with
  | nil =>
    rw [show r3MatchAt ([] : List Char) = none from by decide] at h
    exact absurd h (by simp)
  | cons c t =>
    rw [goR3F_cons, if_pos (rfl : true = true), h]

/-! ### Projection equations of `fixHtmlEncodingIfNeeded` and small facts -/

theorem fix_needFix (detect : List Nat → Option String)
    (convert : String → List Nat → List Char) (bytes : List Nat)
    (forceEnc : Option String) :
    (fixHtmlEncodingIfNeeded detect convert bytes forceEnc).needFix =
      ((decodeStep convert (effEnc detect bytes forceEnc) bytes).2 ||
        (fixMeta (decodeStep convert (effEnc detect bytes forceEnc) bytes).1).2 ||
        (fixClosers (fixMeta
          (decodeStep convert (effEnc detect bytes forceEnc) bytes).1).1).2) :=
  rfl

theorem fix_content (detect : List Nat → Option String)
    (convert : String → List Nat → List Char) (bytes : List Nat)
    (forceEnc : Option String) :
    (fixHtmlEncodingIfNeeded detect convert bytes forceEnc).content =
      (fixClosers (fixMeta
        (decodeStep convert (effEnc detect bytes forceEnc) bytes).1).1).1 :=
  rfl

theorem fix_stored (detect : List Nat → Option String)
    (convert : String → List Nat → List Char) (bytes : List Nat)
    (forceEnc : Option String) :
    (fixHtmlEncodingIfNeeded detect convert bytes forceEnc).stored =
      (if (fixHtmlEncodingIfNeeded detect convert bytes forceEnc).needFix then
        utf8Encode (fixHtmlEncodingIfNeeded detect convert bytes forceEnc).content
      else bytes) :=
  rfl

theorem fix_enc (detect : List Nat → Option String)
    (convert : String → List Nat → List Char) (bytes : List Nat)
    (forceEnc : Option String) :
    (fixHtmlEncodingIfNeeded detect convert bytes forceEnc).enc =
      (if truthy (effEnc detect bytes forceEnc) then effEnc detect bytes forceEnc
       else none) :=
  rfl

theorem hasTriple_cons (a b c x : Nat) (t : List Nat) :
    hasTriple a b c (x :: t) =
      ((x == a && headIs2 b c t) || hasTriple a b c t) :=
  rfl

theorem hasPair_cons (a b x : Nat) (t : List Nat) :
    hasPair a b (x :: t) = ((x == a && headIs b t) || hasPair a b t) :=
  rfl

theorem hasByte_cons (a x : Nat) (w : List Nat) :
    hasByte a (x :: w) = ((x == a) || hasByte a w) :=
  rfl

theorem hasTriple_sub {a b c : Nat} {l : List Nat}
    (h : hasTriple a b c l = true) :
    hasByte a l = true ∧ hasPair b c l = true := by
  induction l with
  | nil => simp [hasTriple] at h
  | cons x t ih =>
    rw [hasTriple_cons] at h
    rcases Bool.or_eq_true _ _ |>.mp h with h1 | h1
    · rcases Bool.and_eq_true _ _ |>.mp h1 with ⟨h2, h3⟩
      constructor
      · rw [hasByte_cons, h2]
        rfl
      · cases t with
        | nil => simp [headIs2] at h3
        | cons y t2 =>
          rw [show headIs2 b c (y :: t2) = (y == b && headIs c t2) from rfl] at h3
          rcases Bool.and_eq_true _ _ |>.mp h3 with ⟨h4, h5⟩
          rw [hasPair_cons]
          refine Bool.or_eq_true _ _ |>.mpr (Or.inr ?_)
          rw [hasPair_cons]
          exact Bool.or_eq_true _ _ |>.mpr
            (Or.inl (Bool.and_eq_true _ _ |>.mpr ⟨h4, h5⟩))
    · obtain ⟨hb, hpr⟩ := ih h1
      constructor
      · rw [hasByte_cons, hb]
        simp
      · rw [hasPair_cons, hpr]
        simp

theorem jisEsc_hasEsc {bytes : List Nat} (h : jisEsc bytes = true) :
    hasEsc bytes = true := by
  rw [hasEsc]
  rcases Bool.or_eq_true _ _ |>.mp h with h1 | h1
  · obtain ⟨hb, hpr⟩ := hasTriple_sub h1
    rw [hb, hpr]
    rfl
  · obtain ⟨hb, hpr⟩ := hasTriple_sub h1
    rw [hb, hpr]
    simp

theorem decodeStep_utf8ish {e : Option String}
    (convert : String → List Nat → List Char) (bytes : List Nat)
    (h : encUtf8ish e = true) :
    decodeStep convert e bytes = (utf8Decode bytes, false) := by
  cases e with
  | none => rfl
  | some s =>
    simp only [encUtf8ish] at h
    rcases Bool.or_eq_true _ _ |>.mp h with h1 | h1 <;>
      simp [decodeStep, h1]

/-! ### The claims -/

/-- C1 (amended).  Idempotence of normalization holds provided the charset
classification of the stored output of the first run is `UTF8` or falsy
(`encUtf8ish`): the second `fixHtmlEncodingIfNeeded` run (no forced charset)
then returns `needFix = false` and leaves the stored bytes identical.  As
stated — for every input and hence for every detector behaviour — the claim
is false: the statistical detector classifies pure-ASCII output as `ASCII`,
which makes the second run transcode and report `needFix = true`
(see the counterexample). -/
theorem C1_second_run_no_modification (detect : List Nat → Option String)
    (convert : String → List Nat → List Char) (bytes : List Nat)
    (h : encUtf8ish (effEnc detect
      (fixHtmlEncodingIfNeeded detect convert bytes none).stored none) = true) :
    (fixHtmlEncodingIfNeeded detect convert
      (fixHtmlEncodingIfNeeded detect convert bytes none).stored none).needFix =
        false ∧
    (fixHtmlEncodingIfNeeded detect convert
      (fixHtmlEncodingIfNeeded detect convert bytes none).stored none).stored =
      (fixHtmlEncodingIfNeeded detect convert bytes none).stored := by
  by_cases hn : (fixHtmlEncodingIfNeeded detect convert bytes none).needFix = true
  · have hst : (fixHtmlEncodingIfNeeded detect convert bytes none).stored =
        utf8Encode (fixHtmlEncodingIfNeeded detect convert bytes none).content := by
      rw [fix_stored, hn]
      simp
    have hIm : testMeta
          (fixHtmlEncodingIfNeeded detect convert bytes none).content = true ∧
        testUtf8Meta
          (fixHtmlEncodingIfNeeded detect convert bytes none).content = true := by
      rw [fix_content]
      exact ⟨fixClosers_pres_testMeta (fixMeta_tests _).1,
        fixClosers_pres_testUtf8Meta (fixMeta_tests _).2⟩
    have hIb : testSub bodyT
          (fixHtmlEncodingIfNeeded detect convert bytes none).content = true ∧
        testSub htmlT
          (fixHtmlEncodingIfNeeded detect convert bytes none).content = true := by
      rw [fix_content]
      exact fixClosers_tests _
    have hd2 := decodeStep_utf8ish convert
      (fixHtmlEncodingIfNeeded detect convert bytes none).stored h
    have hdec : utf8Decode
        (fixHtmlEncodingIfNeeded detect convert bytes none).stored =
        (fixHtmlEncodingIfNeeded detect convert bytes none).content := by
      rw [hst]
      exact utf8_roundtrip _
    have hnf2 : (fixHtmlEncodingIfNeeded detect convert
        (fixHtmlEncodingIfNeeded detect convert bytes none).stored none).needFix =
          false := by
      rw [fix_needFix, hd2]
      show ((false || (fixMeta (utf8Decode
          (fixHtmlEncodingIfNeeded detect convert bytes none).stored)).2) ||
        (fixClosers (fixMeta (utf8Decode
          (fixHtmlEncodingIfNeeded detect convert bytes none).stored)).1).2) = false
      rw [hdec, fixMeta_id hIm.1 hIm.2]
      show ((false || false) || (fixClosers
        (fixHtmlEncodingIfNeeded detect convert bytes none).content).2) = false
      rw [fixClosers_id hIb.1 hIb.2]
      rfl
    refine ⟨hnf2, ?_⟩
    rw [fix_stored, hnf2]
    simp
  · simp only [Bool.not_eq_true] at hn
    have hb : (fixHtmlEncodingIfNeeded detect convert bytes none).stored = bytes := by
      rw [fix_stored, hn]
      simp
    rw [hb]
    exact ⟨hn, hb⟩

/-- Witness for C1: a plain text file with inconclusive detection; after the
first run the stored output is classified as falsy again, and the second run
modifies nothing. -/
theorem C1_second_run_no_modification_witness :
    encUtf8ish (effEnc detectNone
      (fixHtmlEncodingIfNeeded detectNone convertEmpty
        (utf8Encode ("hello".data)) none).stored none) = true ∧
    ((fixHtmlEncodingIfNeeded detectNone convertEmpty
      (fixHtmlEncodingIfNeeded detectNone convertEmpty
        (utf8Encode ("hello".data)) none).stored none).needFix = false ∧
    (fixHtmlEncodingIfNeeded detectNone convertEmpty
      (fixHtmlEncodingIfNeeded detectNone convertEmpty
        (utf8Encode ("hello".data)) none).stored none).stored =
      (fixHtmlEncodingIfNeeded detectNone convertEmpty
        (utf8Encode ("hello".data)) none).stored) :=
  ⟨by decide,
    C1_second_run_no_modification detectNone convertEmpty
      (utf8Encode ("hello".data)) (by decide)⟩

/-- Counterexample to C1 as stated: a fully compliant pure-ASCII HTML file.
The detector (as the real `Encoding.detect` does on all-ASCII content)
returns `ASCII`, which is not `UTF8`, so the second application transcodes
again and returns `wasModified = true`, not `false`. -/
theorem C1_idempotence_counterexample :
    (fixHtmlEncodingIfNeeded detectAscii convertAscii
      (fixHtmlEncodingIfNeeded detectAscii convertAscii
        (utf8Encode asciiCompliantHtml) none).stored none).needFix = true := by
  decide

/-- C2 (amended).  After `fixHtmlEncodingIfNeeded`, the content always
contains at least one charset-declaration tag and a declaration of UTF-8
(the source's own `hasMeta` and `isUtf8Meta` regexes hold on the result).
Exactly one is not guaranteed — see the counterexample. -/
theorem C2_utf8_declaration_present (detect : List Nat → Option String)
    (convert : String → List Nat → List Char) (bytes : List Nat)
    (forceEnc : Option String) :
    testMeta (fixHtmlEncodingIfNeeded detect convert bytes forceEnc).content =
      true ∧
    testUtf8Meta (fixHtmlEncodingIfNeeded detect convert bytes forceEnc).content =
      true := by
  rw [fix_content]
  exact ⟨fixClosers_pres_testMeta (fixMeta_tests _).1,
    fixClosers_pres_testUtf8Meta (fixMeta_tests _).2⟩

/-- Counterexample to C2 as stated: a file with two charset declarations,
one of them UTF-8, is accepted unchanged (`needFix = false`) and the stored
content keeps two charset-declaration tags, not exactly one. -/
theorem C2_single_declaration_counterexample :
    countMeta (fixHtmlEncodingIfNeeded detectUtf8 convertEmpty
      (utf8Encode twoMetaHtml) none).content = 2 ∧
    (fixHtmlEncodingIfNeeded detectUtf8 convertEmpty
      (utf8Encode twoMetaHtml) none).needFix = false := by
  decide

/-- C3 (amended).  Structural closure: if the decoded text (the content
after step 3) lacks `</body>` (case-insensitively), the output contains
exactly one; likewise for `</html>`; if the decoded text already contains a
marker, at least one remains in the output.  The count-preservation part of
the claim is false: the charset-declaration rewrite can delete a marker
embedded in the replaced tag — see the counterexample. -/
theorem C3_structural_closure (detect : List Nat → Option String)
    (convert : String → List Nat → List Char) (bytes : List Nat)
    (forceEnc : Option String) :
    (countOcc bodyT (decodeStep convert (effEnc detect bytes forceEnc) bytes).1 =
        0 →
      countOcc bodyT
        (fixHtmlEncodingIfNeeded detect convert bytes forceEnc).content = 1) ∧
    (countOcc htmlT (decodeStep convert (effEnc detect bytes forceEnc) bytes).1 =
        0 →
      countOcc htmlT
        (fixHtmlEncodingIfNeeded detect convert bytes forceEnc).content = 1) ∧
    (0 < countOcc bodyT
        (decodeStep convert (effEnc detect bytes forceEnc) bytes).1 →
      0 < countOcc bodyT
        (fixHtmlEncodingIfNeeded detect convert bytes forceEnc).content) ∧
    (0 < countOcc htmlT
        (decodeStep convert (effEnc detect bytes forceEnc) bytes).1 →
      0 < countOcc htmlT
        (fixHtmlEncodingIfNeeded detect convert bytes forceEnc).content) := by
  refine ⟨fun h => ?_, fun h => ?_, fun _ => ?_, fun _ => ?_⟩
  · rw [fix_content]
    exact fixClosers_body_count (countOcc_fixMeta_zero markerPat_body h)
  · rw [fix_content]
    exact fixClosers_html_count (countOcc_fixMeta_zero markerPat_html h)
  · rw [fix_content]
    exact (testSub_iff_countOcc (by decide) _).mp (fixClosers_tests _).1
  · rw [fix_content]
    exact (testSub_iff_countOcc (by decide) _).mp (fixClosers_tests _).2

/-- Witness for C3: a file with no markers gains exactly one of each; a
compliant file keeps at least one of each. -/
theorem C3_structural_closure_witness :
    (countOcc bodyT (decodeStep convertEmpty
        (effEnc detectNone (utf8Encode ("hi".data)) none)
        (utf8Encode ("hi".data))).1 = 0 ∧
      countOcc htmlT (decodeStep convertEmpty
        (effEnc detectNone (utf8Encode ("hi".data)) none)
        (utf8Encode ("hi".data))).1 = 0 ∧
      countOcc bodyT (fixHtmlEncodingIfNeeded detectNone convertEmpty
        (utf8Encode ("hi".data)) none).content = 1 ∧
      countOcc htmlT (fixHtmlEncodingIfNeeded detectNone convertEmpty
        (utf8Encode ("hi".data)) none).content = 1) ∧
    (0 < countOcc bodyT (decodeStep convertEmpty
        (effEnc detectUtf8 (utf8Encode utf8CompliantHtml) none)
        (utf8Encode utf8CompliantHtml)).1 ∧
      0 < countOcc htmlT (decodeStep convertEmpty
        (effEnc detectUtf8 (utf8Encode utf8CompliantHtml) none)
        (utf8Encode utf8CompliantHtml)).1 ∧
      0 < countOcc bodyT (fixHtmlEncodingIfNeeded detectUtf8 convertEmpty
        (utf8Encode utf8CompliantHtml) none).content ∧
      0 < countOcc htmlT (fixHtmlEncodingIfNeeded detectUtf8 convertEmpty
        (utf8Encode utf8CompliantHtml) none).content) :=
  ⟨⟨by decide, by decide,
    (C3_structural_closure detectNone convertEmpty
      (utf8Encode ("hi".data)) none).1 (by decide),
    (C3_structural_closure detectNone convertEmpty
      (utf8Encode ("hi".data)) none).2.1 (by decide)⟩,
   ⟨by decide, by decide,
    (C3_structural_closure detectUtf8 convertEmpty
      (utf8Encode utf8CompliantHtml) none).2.2.1 (by decide),
    (C3_structural_closure detectUtf8 convertEmpty
      (utf8Encode utf8CompliantHtml) none).2.2.2 (by decide)⟩⟩

/-- Counterexample to C3 as stated: the decoded text of `overlapMetaHtml`
contains `</body>` twice, but the output contains it only once — the
leftmost charset-declaration match `<meta charset</body>` is replaced by
the canonical declaration, destroying one occurrence. -/
theorem C3_count_preservation_counterexample :
    countOcc bodyT (decodeStep convertEmpty
      (effEnc detectUtf8 (utf8Encode overlapMetaHtml) none)
      (utf8Encode overlapMetaHtml)).1 = 2 ∧
    countOcc bodyT (fixHtmlEncodingIfNeeded detectUtf8 convertEmpty
      (utf8Encode overlapMetaHtml) none).content = 1 := by
  decide

/-- C4 (confirmed).  Any input whose bytes contain 0x1B immediately followed
by `$B` or `(B` is classified ISO-2022-JP, whatever the statistical detector
returns (no forced charset). -/
theorem C4_escape_precedence (detect : List Nat → Option String)
    (convert : String → List Nat → List Char) (bytes : List Nat)
    (h : jisEsc bytes = true) :
    (fixHtmlEncodingIfNeeded detect convert bytes none).enc =
      some "ISO-2022-JP" := by
  have hesc := jisEsc_hasEsc h
  have he : effEnc detect bytes none = some "ISO-2022-JP" := by
    simp [effEnc, truthy, hesc]
  rw [fix_enc, he]
  decide

/-- Witness for C4: ISO-2022-JP bytes with a detector that claims SJIS. -/
theorem C4_escape_precedence_witness :
    jisEsc jisBytes = true ∧
    (fixHtmlEncodingIfNeeded detectSjis convertEmpty jisBytes none).enc =
      some "ISO-2022-JP" :=
  ⟨by decide, C4_escape_precedence detectSjis convertEmpty jisBytes (by decide)⟩

/-- C5 (amended).  An input whose charset classification is `UTF8` or falsy
and whose UTF-8-decoded text already passes the `hasMeta` and `isUtf8Meta`
regexes and contains both closing markers is returned with
`needFix = false` and the file untouched.  As stated — for every UTF-8 text
input — the claim is false: pure-ASCII files are classified `ASCII` by the
statistical detector and get rewritten (see the counterexample). -/
theorem C5_compliant_unmodified (detect : List Nat → Option String)
    (convert : String → List Nat → List Char) (bytes : List Nat)
    (h1 : encUtf8ish (effEnc detect bytes none) = true)
    (h2 : testMeta (utf8Decode bytes) = true)
    (h3 : testUtf8Meta (utf8Decode bytes) = true)
    (h4 : testSub bodyT (utf8Decode bytes) = true)
    (h5 : testSub htmlT (utf8Decode bytes) = true) :
    (fixHtmlEncodingIfNeeded detect convert bytes none).needFix = false ∧
    (fixHtmlEncodingIfNeeded detect convert bytes none).stored = bytes := by
  have hd := decodeStep_utf8ish convert bytes h1
  have hnf : (fixHtmlEncodingIfNeeded detect convert bytes none).needFix =
      false := by
    rw [fix_needFix, hd]
    show ((false || (fixMeta (utf8Decode bytes)).2) ||
      (fixClosers (fixMeta (utf8Decode bytes)).1).2) = false
    rw [fixMeta_id h2 h3]
    show ((false || false) || (fixClosers (utf8Decode bytes)).2) = false
    rw [fixClosers_id h4 h5]
    rfl
  refine ⟨hnf, ?_⟩
  rw [fix_stored, hnf]
  simp

/-- Witness for C5: a compliant UTF-8 file with a multibyte character,
detected as UTF8, is untouched. -/
theorem C5_compliant_unmodified_witness :
    encUtf8ish (effEnc detectUtf8 (utf8Encode utf8CompliantHtml) none) = true ∧
    ((fixHtmlEncodingIfNeeded detectUtf8 convertEmpty
      (utf8Encode utf8CompliantHtml) none).needFix = false ∧
    (fixHtmlEncodingIfNeeded detectUtf8 convertEmpty
      (utf8Encode utf8CompliantHtml) none).stored =
        utf8Encode utf8CompliantHtml) :=
  ⟨by decide,
    C5_compliant_unmodified detectUtf8 convertEmpty
      (utf8Encode utf8CompliantHtml) (by decide) (by decide) (by decide)
      (by decide) (by decide)⟩

/-- Counterexample to C5 as stated: a fully compliant pure-ASCII HTML file
(ASCII is UTF-8 text) is classified `ASCII` by the detector and rewritten:
`needFix = true`, not `false`. -/
theorem C5_ascii_counterexample :
    (fixHtmlEncodingIfNeeded detectAscii convertAscii
      (utf8Encode asciiCompliantHtml) none).needFix = true := by
  decide

/-- C6 (confirmed).  When the statistical detector yields a falsy result and
no JIS escape is present, the routine does not fail: step 3 decodes the
bytes directly as UTF-8 with the transcoding flag unset, and the returned
`enc` is `null`. -/
theorem C6_unknown_detection_fallback (detect : List Nat → Option String)
    (convert : String → List Nat → List Char) (bytes : List Nat)
    (h1 : detect bytes = none) (h2 : hasEsc bytes = false) :
    decodeStep convert (effEnc detect bytes none) bytes =
      (utf8Decode bytes, false) ∧
    (fixHtmlEncodingIfNeeded detect convert bytes none).enc = none := by
  have he : effEnc detect bytes none = none := by
    simp [effEnc, truthy, h1, h2]
  constructor
  · rw [he]
    rfl
  · rw [fix_enc, he]
    decide

/-- Witness for C6 on the bytes of `hi`. -/
theorem C6_unknown_detection_fallback_witness :
    detectNone [104, 105] = none ∧ hasEsc [104, 105] = false ∧
    (decodeStep convertEmpty (effEnc detectNone [104, 105] none) [104, 105] =
      (utf8Decode [104, 105], false) ∧
    (fixHtmlEncodingIfNeeded detectNone convertEmpty [104, 105] none).enc =
      none) :=
  ⟨rfl, by decide,
    C6_unknown_detection_fallback detectNone convertEmpty [104, 105] rfl
      (by decide)⟩

/-- C7 (confirmed).  The file is written exactly when `needFix` is true;
when `needFix` is false the stored bytes are untouched; when it is true the
stored bytes are the UTF-8 encoding of the final content; a diagnostic is
emitted in both cases. -/
theorem C7_write_iff_modified (detect : List Nat → Option String)
    (convert : String → List Nat → List Char) (bytes : List Nat)
    (forceEnc : Option String) :
    (fixHtmlEncodingIfNeeded detect convert bytes forceEnc).wrote =
      (fixHtmlEncodingIfNeeded detect convert bytes forceEnc).needFix ∧
    ((fixHtmlEncodingIfNeeded detect convert bytes forceEnc).needFix = false →
      (fixHtmlEncodingIfNeeded detect convert bytes forceEnc).stored = bytes) ∧
    ((fixHtmlEncodingIfNeeded detect convert bytes forceEnc).needFix = true →
      (fixHtmlEncodingIfNeeded detect convert bytes forceEnc).stored =
        utf8Encode
          (fixHtmlEncodingIfNeeded detect convert bytes forceEnc).content) ∧
    (fixHtmlEncodingIfNeeded detect convert bytes forceEnc).diag = true := by
  refine ⟨rfl, fun h => ?_, fun h => ?_, rfl⟩
  · rw [fix_stored, h]
    simp
  · rw [fix_stored, h]
    simp

/-- Witness for C7: one unmodified invocation and one modified one. -/
theorem C7_write_iff_modified_witness :
    ((fixHtmlEncodingIfNeeded detectUtf8 convertEmpty
        (utf8Encode utf8CompliantHtml) none).needFix = false ∧
      (fixHtmlEncodingIfNeeded detectUtf8 convertEmpty
        (utf8Encode utf8CompliantHtml) none).stored =
          utf8Encode utf8CompliantHtml) ∧
    ((fixHtmlEncodingIfNeeded detectNone convertEmpty
        (utf8Encode ("x".data)) none).needFix = true ∧
      (fixHtmlEncodingIfNeeded detectNone convertEmpty
        (utf8Encode ("x".data)) none).stored =
        utf8Encode (fixHtmlEncodingIfNeeded detectNone convertEmpty
          (utf8Encode ("x".data)) none).content) :=
  ⟨⟨by decide,
    (C7_write_iff_modified detectUtf8 convertEmpty
      (utf8Encode utf8CompliantHtml) none).2.1 (by decide)⟩,
   ⟨by decide,
    (C7_write_iff_modified detectNone convertEmpty
      (utf8Encode ("x".data)) none).2.2.1 (by decide)⟩⟩

/-- C8 (corrected).  `preprocessMarkdown`: because the front-matter pattern
carries the multiline flag, its anchor matches at every line start, so the
first `---`-delimited region whose opening `---` sits at any line start —
not only a leading front-matter block — is deleted together with the
following whitespace (part 1, `pre` being the text scanned without a match
before the region).  A `marp: true` directive line at any line start is
removed up to, but not including, its line terminator (part 2); a heading
whose markers are followed by a second marker run collapses to the first
run plus a single space (part 3); a document in which none of the three
patterns match and with no leading whitespace is returned intact (part 4);
and the two concrete behaviours of the source's doc comment hold
(parts 5 and 6). -/
theorem C8_preprocess_markdown :
    (∀ (pre u : List Char) (q : Nat),
      hasFMatchPre true pre (dashes ++ u) = false → lsAfter true pre = true →
      firstTriple u = some q →
      stripFM (pre ++ (dashes ++ u)) = pre ++ dropWs (u.drop (q + 3))) ∧
    (∀ (pre : List Char) (fuel : Nat) (x : Char) (t : List Char),
      hasMarpPre true pre ("marp: true".data ++ ('\n' :: x :: t)) = false →
      lsAfter true pre = true → wsChar x = false →
      goMarpF (pre.length + (fuel + 1)) true
          (pre ++ ("marp: true".data ++ ('\n' :: x :: t))) =
        pre ++ goMarpF fuel false ('\n' :: x :: t)) ∧
    (∀ (pre : List Char) (fuel n m : Nat) (x : Char) (t : List Char),
      hasR3Pre true pre (List.replicate n '#' ++
        ' ' :: (List.replicate m '#' ++ ' ' :: x :: t)) = false →
      lsAfter true pre = true → 1 ≤ n → n ≤ 6 → 1 ≤ m → wsChar x = false →
      goR3F (pre.length + (fuel + 1)) true
          (pre ++ (List.replicate n '#' ++
            ' ' :: (List.replicate m '#' ++ ' ' :: x :: t))) =
        pre ++ (List.replicate n '#' ++ ' ' :: goR3F fuel false (x :: t))) ∧
    (∀ md : List Char, hasFMatch true md = false →
      hasMarpMatch true md = false → hasR3Match true md = false →
      dropWs md = md → preprocessMarkdown md = md) ∧
    preprocessMarkdown ("---\nmarp: true\n---\n## ### **Q1**\ntext\n").data =
      ("## **Q1**\ntext\n").data ∧
    preprocessMarkdown ("Text\nmarp: true\nmore").data =
      ("Text\x0a\x0amore").data := by
  refine ⟨?_, ?_, ?_,
    fun md h1 h2 h3 h4 => preprocessMarkdown_id h1 h2 h3 h4,
    by decide, by decide⟩
  · intro pre u q h0 h1 h2
    exact stripFM_at_line_start h0 h1 h2
  · intro pre fuel x t h0 h1 hx
    rw [goMarpF_append pre (fuel + 1) true _ h0, h1,
      goMarpF_match fuel (marpMatchAt_line x t hx)]
  · intro pre fuel n m x t h0 h1 hn1 hn2 hm1 hx
    rw [goR3F_append pre (fuel + 1) true _ h0, h1,
      goR3F_match fuel (r3MatchAt_line n m x t hn1 hn2 hm1 hx)]

/-- Witness for C8: each hypothesis-bearing part applied at concrete
inputs, with every hypothesis discharged by evaluation. -/
theorem C8_preprocess_markdown_witness :
    (hasFMatchPre true ("text\n".data)
        (dashes ++ ("\nmid\n---\nend".data)) = false ∧
      lsAfter true ("text\n".data) = true ∧
      firstTriple ("\nmid\n---\nend".data) = some 5 ∧
      stripFM (("text\n".data) ++ (dashes ++ ("\nmid\n---\nend".data))) =
        ("text\n".data) ++ dropWs (("\nmid\n---\nend".data).drop (5 + 3))) ∧
    (hasMarpPre true ("A\n".data)
        ("marp: true".data ++ ('\n' :: 'B' :: [])) = false ∧
      wsChar 'B' = false ∧
      goMarpF (("A\n".data).length + (0 + 1)) true
          (("A\n".data) ++ ("marp: true".data ++ ('\n' :: 'B' :: []))) =
        ("A\n".data) ++ goMarpF 0 false ('\n' :: 'B' :: [])) ∧
    (hasR3Pre true ([] : List Char) (List.replicate 2 '#' ++
        ' ' :: (List.replicate 3 '#' ++ ' ' :: 'Q' :: [])) = false ∧
      wsChar 'Q' = false ∧
      goR3F (([] : List Char).length + (0 + 1)) true
          (([] : List Char) ++ (List.replicate 2 '#' ++
            ' ' :: (List.replicate 3 '#' ++ ' ' :: 'Q' :: []))) =
        ([] : List Char) ++
          (List.replicate 2 '#' ++ ' ' :: goR3F 0 false ('Q' :: []))) ∧
    (hasFMatch true ("plain text".data) = false ∧
      hasMarpMatch true ("plain text".data) = false ∧
      hasR3Match true ("plain text".data) = false ∧
      dropWs ("plain text".data) = ("plain text".data) ∧
      preprocessMarkdown ("plain text".data) = ("plain text".data)) :=
  ⟨⟨by decide, by decide, by decide,
    C8_preprocess_markdown.1 ("text\n".data) ("\nmid\n---\nend".data) 5
      (by decide) (by decide) (by decide)⟩,
   ⟨by decide, by decide,
    C8_preprocess_markdown.2.1 ("A\n".data) 0 'B' [] (by decide) (by decide)
      (by decide)⟩,
   ⟨by decide, by decide,
    C8_preprocess_markdown.2.2.1 [] 0 2 3 'Q' [] (by decide) (by decide)
      (by decide) (by decide) (by decide) (by decide)⟩,
   ⟨by decide, by decide, by decide, by decide,
    C8_preprocess_markdown.2.2.2.1 ("plain text".data) (by decide) (by decide)
      (by decide) (by decide)⟩⟩

/-- Counterexample to C8 as stated: the front-matter pattern is compiled
with the multiline flag, so its anchor matches at every line start, not only
at the start of the document.  This input has no leading front-matter block,
no marp-directive match, no heading-repetition match and no leading
whitespace, so under the claim `preprocessMarkdown` would leave the rest of
the document's text intact; instead the mid-document section delimited by
the two `---` lines is deleted. -/
theorem C8_nonleading_strip_counterexample :
    preprocessMarkdown ("text\n---\nmid\n---\nend").data =
      ("text\nend").data ∧
    ("text\n---\nmid\n---\nend").data ≠ ("text\nend").data ∧
    hasMarpMatch true ("text\n---\nmid\n---\nend").data = false ∧
    hasR3Match true ("text\n---\nmid\n---\nend").data = false ∧
    dropWs ("text\n---\nmid\n---\nend").data =
      ("text\n---\nmid\n---\nend").data := by
  decide

/-- C9 (confirmed).  A supplied (non-empty) forced charset suppresses the
JIS-escape override: even on bytes containing the escape sequence, the
effective charset and the returned `enc` are the forced label itself, never
ISO-2022-JP (unless that label was forced). -/
theorem C9_forced_charset (detect : List Nat → Option String)
    (convert : String → List Nat → List Char) (bytes : List Nat) (s : String)
    (h1 : ¬ s = "") (h2 : jisEsc bytes = true) :
    effEnc detect bytes (some s) = some s ∧
    (fixHtmlEncodingIfNeeded detect convert bytes (some s)).enc = some s := by
  have ht : truthy (some s) = true := by
    simp [truthy, h1]
  have he : effEnc detect bytes (some s) = some s := by
    simp [effEnc, ht]
  refine ⟨he, ?_⟩
  rw [fix_enc, he, if_pos ht]

/-- Witness for C9: forcing `SJIS` on JIS-escape bytes keeps `SJIS`. -/
theorem C9_forced_charset_witness :
    (¬ ("SJIS" : String) = "") ∧ jisEsc jisBytes = true ∧
    (effEnc detectUtf8 jisBytes (some "SJIS") = some "SJIS" ∧
      (fixHtmlEncodingIfNeeded detectUtf8 convertEmpty jisBytes
        (some "SJIS")).enc = some "SJIS") :=
  ⟨by decide, by decide,
    C9_forced_charset detectUtf8 convertEmpty jisBytes "SJIS" (by decide)
      (by decide)⟩

/-- C10 (confirmed).  `run.js` lower-cases the parsed extension and
dispatches `.md` to `mdToHtml`, `.docx` to `wordToHtml`, `.html` or `.htm`
to `htmlToPdf`, and everything else to the error exit, without invoking a
converter. -/
theorem C10_extension_dispatch (rawExt : List Char) :
    (rawExt.map lc = ".md".data → runDispatch rawExt = ConvAction.mdToHtml) ∧
    (rawExt.map lc = ".docx".data →
      runDispatch rawExt = ConvAction.wordToHtml) ∧
    ((rawExt.map lc = ".html".data ∨ rawExt.map lc = ".htm".data) →
      runDispatch rawExt = ConvAction.htmlToPdf) ∧
    (¬(rawExt.map lc = ".md".data ∨ rawExt.map lc = ".docx".data ∨
        rawExt.map lc = ".html".data ∨ rawExt.map lc = ".htm".data) →
      runDispatch rawExt = ConvAction.exitError) := by
  refine ⟨fun h => ?_, fun h => ?_, fun h => ?_, fun h => ?_⟩
  · simp only [runDispatch]
    rw [h, if_pos rfl]
  · simp only [runDispatch]
    rw [h, if_neg (by decide), if_pos rfl]
  · rcases h with h | h
    · simp only [runDispatch]
      rw [h, if_neg (by decide), if_neg (by decide), if_pos (Or.inl rfl)]
    · simp only [runDispatch]
      rw [h, if_neg (by decide), if_neg (by decide), if_pos (Or.inr rfl)]
  · have h1 : ¬ rawExt.map lc = ".md".data := fun hx => h (Or.inl hx)
    have h2 : ¬ rawExt.map lc = ".docx".data := fun hx => h (Or.inr (Or.inl hx))
    have h3 : ¬ (rawExt.map lc = ".html".data ∨ rawExt.map lc = ".htm".data) :=
      fun hx => hx.elim (fun a => h (Or.inr (Or.inr (Or.inl a))))
        (fun a => h (Or.inr (Or.inr (Or.inr a))))
    simp only [runDispatch]
    rw [if_neg h1, if_neg h2, if_neg h3]

/-- Witness for C10: upper-case `.MD` dispatches to Markdown conversion,
mixed-case `.HtM` to PDF conversion, `.txt` to the error exit. -/
theorem C10_extension_dispatch_witness :
    ((".MD".data).map lc = ".md".data ∧
      runDispatch (".MD".data) = ConvAction.mdToHtml) ∧
    runDispatch (".HtM".data) = ConvAction.htmlToPdf ∧
    runDispatch (".txt".data) = ConvAction.exitError :=
  ⟨⟨by decide, (C10_extension_dispatch (".MD".data)).1 (by decide)⟩,
   (C10_extension_dispatch (".HtM".data)).2.2.1
     (Or.inr (by decide)),
   (C10_extension_dispatch (".txt".data)).2.2.2 (by decide)⟩

end TextConv
